import Mathlib

set_option maxHeartbeats 1000000

/-!
Verification of the orchestration code of the finch ensemble pipeline
(finch/processes/ensemble_utils.py, base.py, wpsio.py).

Python strings are modelled as Lean `String`s (lists of characters);
Python `pathlib.Path` values are modelled by the `FPath` structure below,
keeping the final component (`name`) and the full path.  External
scientific libraries (xarray, xclim, siphon) are modelled as oracle
parameters, as the specification treats them as black boxes.
-/

/-! ## Python-string helpers (character-level models of str methods) -/

/-- Model of Python str.lower for the ASCII names used here. -/
def pyLower (s : String) : String := ⟨s.data.map Char.toLower⟩

/-- needle occurs as a contiguous run inside hay. -/
def infixOfB (needle : List Char) : List Char → Bool
  | [] => needle.isEmpty
  | c :: rest => needle.isPrefixOf (c :: rest) || infixOfB needle rest

/-- Model of the Python membership test sub in s (substring containment). -/
def strContains (s sub : String) : Bool := infixOfB sub.data s.data

/-- Model of Python str.strip() (whitespace removed from both ends). -/
def pyStrip (s : String) : String :=
  ⟨((s.data.dropWhile Char.isWhitespace).reverse.dropWhile Char.isWhitespace).reverse⟩

/-- Model of Python str.split(sep) for a one-character separator: splits at
every occurrence and keeps empty pieces, so the empty string gives one
empty piece. -/
def pySplitChar (sep : Char) : List Char → List (List Char)
  | [] => [[]]
  | c :: rest =>
    match pySplitChar sep rest with
    | [] => [[]]
    | g :: gs => if c = sep then [] :: g :: gs else (c :: g) :: gs

/-- Digits of a decimal numeral, or none if the list is empty or contains a
non-digit character. -/
def digitsToNat? : List Char → Option Nat
  | [] => none
  | [c] => if c.isDigit then some (c.toNat - '0'.toNat) else none
  | c :: rest =>
    if c.isDigit then
      (digitsToNat? rest).map (fun n => (c.toNat - '0'.toNat) * 10 ^ rest.length + n)
    else none

/-- Model of Python int(s) on a stripped string: an optional sign followed
by at least one decimal digit (digit-group underscores are not modelled, as
no caller uses them). None models the ValueError raised otherwise. -/
def pyInt? (s : String) : Option Int :=
  match (pyStrip s).data with
  | '-' :: rest => (digitsToNat? rest).map (fun n => -(n : Int))
  | '+' :: rest => (digitsToNat? rest).map (fun n => (n : Int))
  | cs => (digitsToNat? cs).map (fun n => (n : Int))

/-- Leftmost occurrence of old inside s, replaced by new: a model of
Python s.replace(old, new, 1).  Returns s unchanged when old does not
occur. -/
def replaceFirstAux (old new : List Char) : List Char → List Char
  | [] => []
  | c :: rest =>
    if old.isPrefixOf (c :: rest) then new ++ (c :: rest).drop old.length
    else c :: replaceFirstAux old new rest

/-- Model of Python s.replace(old, new, 1). -/
def replaceFirst (s old new : String) : String :=
  if old.data = [] then ⟨new.data ++ s.data⟩
  else ⟨replaceFirstAux old.data new.data s.data⟩

/-- A file path: final component (Python Path.name) plus the full path
(Python str(file)).  Two distinct paths may share a name. -/
structure FPath where
  name : String
  path : String
deriving DecidableEq, Repr

/-! ## The parse-library pattern matcher (Bccaqv2File.from_filename)

finch parses filenames with parse.parse on the pattern
variable_frequency_BCCAQv2+ANUSPLIN300_model_experiment_rRiIpP_start-end.nc
where every brace field compiles to the non-greedy regex group (.+?) and
the whole string must be consumed.  The parse library compiles its
pattern with re.IGNORECASE and re.DOTALL (its case_sensitive argument
defaults to False), so the matcher below matches literal characters up
to ASCII case through Char.toLower, lets a field capture one or more
arbitrary characters, prefers shorter captures of earlier fields, and
returns the first successful assignment in that order. -/

/-- Characterwise lowering of a character list (String.data level). -/
def lowChars (cs : List Char) : List Char := cs.map Char.toLower

/-- Case-insensitive prefix test: how a pattern literal compiled with
re.IGNORECASE matches the head of the input, character by character
through Char.toLower. -/
def ciPrefixOf : List Char → List Char → Bool
  | [], _ => true
  | _ :: _, [] => false
  | a :: as, b :: bs => (a.toLower == b.toLower) && ciPrefixOf as bs

/-- A token of a parse-library pattern: a literal chunk, or a bare brace
field matching one or more characters non-greedily. -/
inductive Tok where
  | lit : List Char → Tok
  | field : Tok
deriving DecidableEq, Repr

/-- All splits of a list into a nonempty front part and the rest, shortest
front first: the order in which a non-greedy regex field is extended. -/
def splitsFrom (cs : List Char) : List (List Char × List Char) :=
  (List.range cs.length).map fun n => (cs.take (n + 1), cs.drop (n + 1))

/-- Backtracking matcher for a parse-library pattern.  Returns the field
captures of the match preferred by Python's regex engine (earlier fields
as short as possible), or none when the pattern cannot match at all. -/
def matchToks : List Tok → List Char → Option (List (List Char))
  | [], [] => some []
  | [], _ :: _ => none
  | Tok.lit s :: ts, cs =>
      if ciPrefixOf s cs then matchToks ts (cs.drop s.length) else none
  | Tok.field :: ts, cs =>
      (splitsFrom cs).findSome? fun p => (matchToks ts p.2).map fun r => p.1 :: r

/-- The literal chunks of a pattern, in order. -/
def litsOf : List Tok → List (List Char)
  | [] => []
  | Tok.lit s :: ts => s :: litsOf ts
  | Tok.field :: ts => litsOf ts

/-- Reassemble an input string from a pattern, one case-variant chunk per
literal of the pattern, and one capture per field. -/
def fillToksCI : List Tok → List (List Char) → List (List Char) → List Char
  | [], _, _ => []
  | Tok.lit _ :: ts, [], caps => fillToksCI ts [] caps
  | Tok.lit _ :: ts, lv :: lvs, caps => lv ++ fillToksCI ts lvs caps
  | Tok.field :: _, _, [] => []
  | Tok.field :: ts, lvs, c :: caps => c ++ fillToksCI ts lvs caps

/-- Number of brace fields in a pattern. -/
def countFields : List Tok → Nat
  | [] => 0
  | Tok.lit _ :: ts => countFields ts
  | Tok.field :: ts => countFields ts + 1

/-- The strings accepted by a pattern: every literal is matched by a
characterwise case variant of itself (re.IGNORECASE) and every field
consumes a nonempty chunk. -/
inductive Matched : List Tok → List Char → Prop where
  | nil : Matched [] []
  | lit (s pre : List Char) (ts : List Tok) (cs : List Char) :
      lowChars pre = lowChars s → Matched ts cs →
        Matched (Tok.lit s :: ts) (pre ++ cs)
  | field (pre : List Char) (ts : List Tok) (cs : List Char) :
      pre ≠ [] → Matched ts cs → Matched (Tok.field :: ts) (pre ++ cs)

/-- The parsed fields of a BCCAQv2+ANUSPLIN300 filename
(dataclass Bccaqv2File of ensemble_utils.py; the date fields are always
set by from_filename, so they are not optional here). -/
structure Bccaqv2File where
  «variable» : String
  frequency : String
  driving_model_id : String
  driving_experiment_id : String
  driving_realization : String
  driving_initialization_method : String
  driving_physics_version : String
  date_start : String
  date_end : String
deriving DecidableEq, Repr

/-- The token form of the pattern string built in Bccaqv2File.from_filename. -/
def bccaqToks : List Tok :=
  [Tok.field, Tok.lit "_".data,
   Tok.field, Tok.lit "_BCCAQv2+ANUSPLIN300_".data,
   Tok.field, Tok.lit "_".data,
   Tok.field, Tok.lit "_r".data,
   Tok.field, Tok.lit "i".data,
   Tok.field, Tok.lit "p".data,
   Tok.field, Tok.lit "_".data,
   Tok.field, Tok.lit "-".data,
   Tok.field, Tok.lit ".nc".data]

/-- Bccaqv2File.from_filename: parse the filename against the pattern,
returning none (Python returns None via the AttributeError handler) when
the pattern does not match. -/
def Bccaqv2File.from_filename (filename : String) : Option Bccaqv2File :=
  match matchToks bccaqToks filename.data with
  | some [v, fr, m, e, r, i, p, ds, de] =>
      some ⟨⟨v⟩, ⟨fr⟩, ⟨m⟩, ⟨e⟩, ⟨r⟩, ⟨i⟩, ⟨p⟩, ⟨ds⟩, ⟨de⟩⟩
  | _ => none

/-- The filename having a given record as its segments. -/
def Bccaqv2File.rebuild (b : Bccaqv2File) : String :=
  b.«variable» ++ "_" ++ b.frequency ++ "_BCCAQv2+ANUSPLIN300_" ++
    b.driving_model_id ++ "_" ++ b.driving_experiment_id ++ "_r" ++
    b.driving_realization ++ "i" ++ b.driving_initialization_method ++ "p" ++
    b.driving_physics_version ++ "_" ++ b.date_start ++ "-" ++ b.date_end ++ ".nc"

/-- A filename assembled from a record's nine segments and nine explicit
separator chunks; rebuild is rebuildWith at the canonical separators. -/
def Bccaqv2File.rebuildWith (b : Bccaqv2File)
    (l1 l2 l3 l4 l5 l6 l7 l8 l9 : String) : String :=
  b.«variable» ++ l1 ++ b.frequency ++ l2 ++ b.driving_model_id ++ l3 ++
    b.driving_experiment_id ++ l4 ++ b.driving_realization ++ l5 ++
    b.driving_initialization_method ++ l6 ++ b.driving_physics_version ++ l7 ++
    b.date_start ++ l8 ++ b.date_end ++ l9

/-- The nine separator chunks are characterwise case variants of the
pattern's literal separators (what matching them under re.IGNORECASE
means). -/
def sepVariants (l1 l2 l3 l4 l5 l6 l7 l8 l9 : String) : Prop :=
  pyLower l1 = pyLower "_" ∧ pyLower l2 = pyLower "_BCCAQv2+ANUSPLIN300_" ∧
    pyLower l3 = pyLower "_" ∧ pyLower l4 = pyLower "_r" ∧
    pyLower l5 = pyLower "i" ∧ pyLower l6 = pyLower "p" ∧
    pyLower l7 = pyLower "_" ∧ pyLower l8 = pyLower "-" ∧ pyLower l9 = pyLower ".nc"

/-- All nine segments of a parsed record are nonempty (each brace field of
the pattern consumes at least one character). -/
def Bccaqv2File.wellFormed (b : Bccaqv2File) : Prop :=
  b.«variable» ≠ "" ∧ b.frequency ≠ "" ∧ b.driving_model_id ≠ "" ∧
    b.driving_experiment_id ≠ "" ∧ b.driving_realization ≠ "" ∧
    b.driving_initialization_method ≠ "" ∧ b.driving_physics_version ≠ "" ∧
    b.date_start ≠ "" ∧ b.date_end ≠ ""

instance (b : Bccaqv2File) : Decidable b.wellFormed := by
  unfold Bccaqv2File.wellFormed
  infer_instance

/-! ## Dataset discovery (_bccaqv2_filter and the get_*_datasets functions) -/

/-- The dataset-selection constants imported from finch.processes.constants.
Modelled from the spec: the constants module is not among the given source
files; the spec only says files are discovered by a model/scenario/variable
selection, so the two selection keywords and the two model lists are left
as parameters rather than fabricated. -/
structure Bccaqv2Consts where
  ALL_24_MODELS : String
  PCIC_12 : String
  BCCAQV2_MODELS : List String
  PCIC_12_MODELS_REALIZATIONS : List (String × String)

/-- Python list comprehension lowering every element. -/
def lowerList (l : List String) : List String := l.map pyLower

/-- Python truthiness of an optional list (None and the empty list are falsy). -/
def truthyList (v : Option (List String)) : Bool :=
  match v with
  | none => false
  | some l => !l.isEmpty

/-- Python truthiness of an optional string (None and the empty string are falsy). -/
def truthyStr (v : Option String) : Bool :=
  match v with
  | none => false
  | some s => s != ""

/-- Model of the Python slice s[1:] (used on the r1-style realization tags). -/
def pyDrop1 (s : String) : String := ⟨s.data.drop 1⟩

/-- The effective, lowercased model list after the two normalization
assignments at the top of _bccaqv2_filter: a missing selection or the
all-24-models keyword is replaced by BCCAQV2_MODELS, then everything is
lowercased. -/
def effectiveModels (K : Bccaqv2Consts) (models : Option (List String)) : List String :=
  match models with
  | none => lowerList K.BCCAQV2_MODELS
  | some ms =>
      if lowerList ms = [pyLower K.ALL_24_MODELS] then lowerList K.BCCAQV2_MODELS
      else lowerList ms

/-- Body of _bccaqv2_filter for ParsingMethod.filename once the model list
has been normalized: parse the filename, then check the variable list, the
rcp substring, and either the PCIC-12 (model, realization) pairs or
membership in the model list together with realization 1. -/
def filterWithModels (K : Bccaqv2Consts) (filename : String)
    (variabs : Option (List String)) (rcp : Option String)
    (modelsL : List String) : Bool :=
  match Bccaqv2File.from_filename filename with
  | none => false
  | some parsed =>
    if truthyList variabs && !((variabs.getD []).contains parsed.«variable») then
      false
    else if truthyStr rcp && !(strContains parsed.driving_experiment_id (rcp.getD "")) then
      false
    else if modelsL = [pyLower K.PCIC_12] then
      K.PCIC_12_MODELS_REALIZATIONS.any fun mr =>
        (pyLower mr.1 == pyLower parsed.driving_model_id) &&
          (pyDrop1 mr.2 == parsed.driving_realization)
    else
      modelsL.contains (pyLower parsed.driving_model_id) &&
        (parsed.driving_realization == "1")

/-- The _bccaqv2_filter function of ensemble_utils.py with
method = ParsingMethod.filename (the default; the other branches raise
NotImplementedError and are unreachable from get_datasets). -/
def bccaqv2_filter (K : Bccaqv2Consts) (filename : String)
    (variabs : Option (List String)) (rcp : Option String)
    (models : Option (List String)) : Bool :=
  filterWithModels K filename variabs rcp (effectiveModels K models)

/-- A THREDDS catalog entry as used by get_bccaqv2_opendap_datasets: its
dataset name and its OPENDAP access url. -/
structure TDSDataset where
  name : String
  opendap_url : String
deriving DecidableEq, Repr

/-- get_bccaqv2_opendap_datasets: keep, in catalog order, the OPENDAP url
of every catalog dataset whose name passes the filter. -/
def get_bccaqv2_opendap_datasets (K : Bccaqv2Consts) (catalog : List TDSDataset)
    (variabs : Option (List String)) (rcp : Option String)
    (models : Option (List String)) : List String :=
  (catalog.filter fun d => bccaqv2_filter K d.name variabs rcp models).map
    fun d => d.opendap_url

/-- get_bccaqv2_local_files_datasets: keep, in glob order, the full path of
every globbed *.nc file whose final component passes the filter. -/
def get_bccaqv2_local_files_datasets (K : Bccaqv2Consts) (globFiles : List FPath)
    (variabs : Option (List String)) (rcp : Option String)
    (models : Option (List String)) : List String :=
  (globFiles.filter fun f => bccaqv2_filter K f.name variabs rcp models).map
    fun f => f.path

/-- The claim's filtering conditions common to every selection: the
filename parses, a (truthy) variables list contains the parsed variable,
and a (truthy) rcp occurs inside the parsed driving_experiment_id. -/
def commonSpecC2 (filename : String) (variabs : Option (List String))
    (rcp : Option String) (p : Bccaqv2File) : Prop :=
  Bccaqv2File.from_filename filename = some p ∧
    (∀ vs, variabs = some vs → vs ≠ [] → p.«variable» ∈ vs) ∧
    (∀ r, rcp = some r → r ≠ "" → strContains p.driving_experiment_id r = true)

/-- The claim's description of the filter under the default or
all-24-models selection: the parsed model is one of the known BCCAQv2
models (case-insensitively) and the realization is 1. -/
def filterSpecDefault (K : Bccaqv2Consts) (filename : String)
    (variabs : Option (List String)) (rcp : Option String) : Prop :=
  ∃ p : Bccaqv2File, commonSpecC2 filename variabs rcp p ∧
    pyLower p.driving_model_id ∈ lowerList K.BCCAQV2_MODELS ∧
    p.driving_realization = "1"

/-- The claim's description of the filter under the PCIC-12 selection:
the parsed (model, realization) pair is one of the twelve listed pairs. -/
def filterSpecPcic (K : Bccaqv2Consts) (filename : String)
    (variabs : Option (List String)) (rcp : Option String) : Prop :=
  ∃ p : Bccaqv2File, commonSpecC2 filename variabs rcp p ∧
    ∃ mr ∈ K.PCIC_12_MODELS_REALIZATIONS,
      pyLower mr.1 = pyLower p.driving_model_id ∧
        pyDrop1 mr.2 = p.driving_realization

/-- The request selects the default model set: no models input, or exactly
the all-24-models keyword. -/
def SelDefault (K : Bccaqv2Consts) (models : Option (List String)) : Prop :=
  models = none ∨ ∃ ms, models = some ms ∧ lowerList ms = [pyLower K.ALL_24_MODELS]

/-- The request selects the PCIC-12 model set. -/
def SelPcic (K : Bccaqv2Consts) (models : Option (List String)) : Prop :=
  ∃ ms, models = some ms ∧ lowerList ms = [pyLower K.PCIC_12] ∧
    lowerList ms ≠ [pyLower K.ALL_24_MODELS]

/-! ## Progress reporting (FinchProgress._draw_bar, FinchProcess.zip_metalink) -/

/-- The percentage reported by FinchProgress._draw_bar of base.py: the dask
fraction is rescaled by frac += start - frac * start with
start = start_percentage / 100, then percent = int(100 * frac).  The float
arithmetic is modelled with rationals; int() truncation of these
non-negative values is the floor. -/
def draw_bar_percent (start_percentage : ℕ) (frac : ℚ) : ℤ :=
  ⌊100 * (frac + (start_percentage : ℚ) / 100 - frac * ((start_percentage : ℚ) / 100))⌋

/-- The percentage reported by FinchProcess.zip_metalink of base.py for the
file of 0-based index n among n_files:
start_percentage + int(n / n_files * (100 - start_percentage)). -/
def zip_metalink_percentage (start_percentage : ℕ) (n n_files : ℕ) : ℤ :=
  (start_percentage : ℤ) +
    ⌊((n : ℚ) / (n_files : ℚ)) * (100 - (start_percentage : ℚ))⌋

/-! ## make_ensemble (ensemble_utils.py) -/

/-- Attributes of a data variable that make_ensemble inspects: the
is_dayofyear flag and the units string. -/
structure VarMeta where
  is_dayofyear : ℕ
  units : String
deriving DecidableEq, Repr

/-- A minimal model of an xarray Dataset as make_ensemble manipulates it:
the time coordinate is kept as the list of its steps' calendar years (the
only aspect of a time value the function reads), together with the other
coordinates and the data variables with their attributes. -/
structure MiniDS where
  timeYears : List ℤ
  coords : List (String × List String)
  dataVars : List (String × VarMeta)
deriving DecidableEq, Repr

/-- The line ensemble.sel(time=(ensemble.time.dt.year >= 1950)): keep only
the time steps whose year is at least 1950; no other part of the dataset
changes. -/
def selFrom1950 (ds : MiniDS) : MiniDS :=
  { ds with timeYears := ds.timeYears.filter fun y => 1950 ≤ y }

/-- The doy_to_days_since loop: every variable flagged is_dayofyear gets
days-after units; the time coordinate is untouched. -/
def doyToDaysSince (ds : MiniDS) : MiniDS :=
  { ds with dataVars := ds.dataVars.map fun v =>
      if v.2.is_dayofyear = 1 then (v.1, ⟨0, "days after"⟩) else v }

/-- The days_since_to_doy loop over the percentile result: every variable
whose units start with days after is converted back; the time coordinate
is untouched. -/
def daysSinceToDoy (ds : MiniDS) : MiniDS :=
  { ds with dataVars := ds.dataVars.map fun v =>
      if "days after".data.isPrefixOf v.2.units.data then (v.1, ⟨1, ""⟩) else v }

/-- The drop of the realization coordinate when xclim left one. -/
def dropRealization (ds : MiniDS) : MiniDS :=
  { ds with coords := ds.coords.filter fun c => c.1 ≠ "realization" }

/-- The external xclim operations make_ensemble delegates to:
create_ensemble opens and aligns the input files, ensemble_percentiles
reduces the realization dimension to the requested percentiles. -/
structure EnsembleEnv where
  create_ensemble : List FPath → MiniDS
  ensemble_percentiles : MiniDS → List ℤ → MiniDS

/-- make_ensemble of ensemble_utils.py over the dataset model, applying in
the source's order: create_ensemble, the 1950 time selection, the
day-of-year conversion, ensemble_percentiles, the back-conversion, and the
realization drop (the final load() call is an evaluation hint with no
semantic content). -/
def make_ensemble (env : EnsembleEnv) (files : List FPath)
    (percentiles : List ℤ) : MiniDS :=
  dropRealization (daysSinceToDoy
    (env.ensemble_percentiles (doyToDaysSince (selFrom1950 (env.create_ensemble files)))
      percentiles))

/-! ## make_file_groups (ensemble_utils.py) -/

/-- Insert into a Python-dict model (association list with unique keys):
an existing key is overwritten in place, a new key is appended. -/
def dinsert : List (String × FPath) → String → FPath → List (String × FPath)
  | [], k, v => [(k, v)]
  | (k', v') :: rest, k, v =>
    if k' = k then (k, v) :: rest else (k', v') :: dinsert rest k v

/-- Key lookup in the dict model. -/
def dlookup : List (String × FPath) → String → Option FPath
  | [], _ => none
  | (k', v') :: rest, k => if k' = k then some v' else dlookup rest k

/-- Key deletion in the dict model (Python del). -/
def derase : List (String × FPath) → String → List (String × FPath)
  | [], _ => []
  | (k', v') :: rest, k => if k' = k then rest else (k', v') :: derase rest k

/-- The comprehension filenames = the map from f.name to f over files_list;
later files override earlier ones on a name collision, as in Python. -/
def buildDict (files : List FPath) : List (String × FPath) :=
  files.foldl (fun d f => dinsert d f.name f) []

/-- The inner loop of make_file_groups over the other accepted variables:
every file whose name is the anchor's name with the variable prefix
replaced is moved from the remaining dict into the group, in iteration
order. -/
def collectOthers (anchorName v : String) :
    List String → List (String × FPath) → List (String × FPath) × List (String × FPath)
  | [], fns => ([], fns)
  | ov :: ovs, fns =>
    match dlookup fns (replaceFirst anchorName v ov) with
    | some f =>
      let r := collectOthers anchorName v ovs (derase fns (replaceFirst anchorName v ov))
      ((ov, f) :: r.1, r.2)
    | none => collectOthers anchorName v ovs fns

/-- One iteration of the outer loop of make_file_groups: skip files whose
name is gone from the dict, find the first accepted variable followed by
an underscore that prefixes the name (Python's for/break), collect the
sibling files, append the anchor entry, and delete the anchor's name. -/
def groupStep (vars : List String)
    (st : List (String × FPath) × List (List (String × FPath)))
    (file : FPath) : List (String × FPath) × List (List (String × FPath)) :=
  if (dlookup st.1 file.name).isSome then
    match vars.find? (fun v => (v ++ "_").data.isPrefixOf file.name.data) with
    | some v =>
      let r := collectOthers file.name v (vars.filter fun ov => ov ≠ v) st.1
      (derase r.2 file.name, st.2 ++ [r.1 ++ [(v, file)]])
    | none => st
  else st

/-- make_file_groups of ensemble_utils.py.  The accepted_variables set is
passed as a list giving one of its iteration orders. -/
def make_file_groups (vars : List String) (files : List FPath) :
    List (List (String × FPath)) :=
  (files.foldl (groupStep vars) (buildDict files, [])).2

/-- The files placed in a group. -/
def groupFiles (g : List (String × FPath)) : List FPath := g.map fun e => e.2

/-- All names of grouped files, across a list of groups. -/
def gNames (gs : List (List (String × FPath))) : List String :=
  (gs.map fun g => g.map fun e => e.2.name).flatten

/-- Loop invariant of the make_file_groups fold, relating the remaining
dict and the groups built so far; done is the already-processed prefix of
the file list: dict entries are input files keyed by their names with
unique keys; every group has a common tail, entries tagged by variables of
that tail, and contains every input file of that tail; grouped names are
unique and disjoint from the dict; every input file is in the dict or
grouped; and every processed file with a variable prefix is grouped. -/
def GroupInv (vars : List String) (files done : List FPath)
    (st : List (String × FPath) × List (List (String × FPath))) : Prop :=
  (∀ e ∈ st.1, e.2 ∈ files ∧ e.2.name = e.1) ∧
  (st.1.map Prod.fst).Nodup ∧
  (∀ g ∈ st.2, ∃ rest : List Char,
    (∀ e ∈ g, e.1 ∈ vars ∧ e.2 ∈ files ∧ e.2.name.data = e.1.data ++ '_' :: rest) ∧
    (∀ v ∈ vars, ∀ f ∈ files, f.name.data = v.data ++ '_' :: rest → (v, f) ∈ g)) ∧
  (gNames st.2).Nodup ∧
  (∀ n ∈ gNames st.2, n ∉ st.1.map Prod.fst) ∧
  (∀ f ∈ files, (f.name, f) ∈ st.1 ∨ ∃ g ∈ st.2, f ∈ groupFiles g) ∧
  (∀ f ∈ done, (∃ v ∈ vars, (v ++ "_").data.isPrefixOf f.name.data = true) →
    ∃ g ∈ st.2, f ∈ groupFiles g)

/-! ## ensemble_common_handler (ensemble_utils.py)

The handler is embedded as a trace-producing function: every pipeline step
appends an event, the external collaborators (get_datasets, the subset
function, compute_intermediate_variables, make_indicator_inputs,
compute_indices, make_ensemble, make_output_filename) are oracle fields of
HandlerEnv, and raised exceptions become Except errors carrying the events
emitted before the raise. -/

/-- Pipeline events, in the order the steps occur. -/
inductive Ev where
  | fetch : String → Ev
  | subsetEv : String → Ev
  | intermediateEv : String → Ev
  | indicesEv : String → ℕ → Ev
  | ensembleEv : String → List Int → Ev
  | serializeEv : Ev
deriving DecidableEq, Repr

/-- The exceptions the handler can raise: the pywps ProcessError for empty
subsets, the ValueError of int() on a malformed percentiles input, and the
IndexError of ensembles[0] when no rcp was requested. -/
inductive PErr where
  | processError : String → PErr
  | valueError : PErr
  | indexError : PErr
deriving DecidableEq, Repr

/-- External collaborators of ensemble_common_handler, with files and
datasets reduced to the tokens the control flow passes around. -/
structure HandlerEnv where
  getDatasets : String → List String
  subsetF : List String → List FPath
  intermediate : List FPath → List FPath
  indicatorInputs : List FPath → List String
  computeIndices : String → String
  makeEnsembleF : List String → List Int → String
  outputFilename : String → String

/-- The request inputs ensemble_common_handler reads. -/
structure HandlerArgs where
  output_format : String
  ensemble_percentiles : String
  rcp_inputs : List String
  baseDir : String

/-- The percentiles parsing line: int(p.strip()) for every comma-separated
piece (int() itself strips, so the inner strip is subsumed by pyInt?). -/
def parsePercs (s : String) : Option (List Int) :=
  (pySplitChar ',' s.data).mapM fun p => pyInt? ⟨p⟩

/-- Per-scenario results combined at the end of the handler: a single
ensemble or an xr.concat along a new dimension with given coordinates. -/
inductive Combined where
  | single : String → Combined
  | concat : String → List String → List String → Combined
deriving DecidableEq, Repr

/-- The final output file: a zip archive with its member files, or one
NetCDF file. -/
inductive OutputFile where
  | zipArchive : String → List String → OutputFile
  | netcdf : String → OutputFile
deriving DecidableEq, Repr

/-- The handler's result: the combined ensemble and the output file. -/
structure HandlerOut where
  combined : Combined
  outFile : OutputFile
deriving DecidableEq, Repr

/-- Split a path string into directory part (trailing slash kept) and
final component. -/
def lastComponentSplit (s : List Char) : List Char × List Char :=
  (((s.reverse.dropWhile fun c => c ≠ '/').reverse),
   ((s.reverse.takeWhile fun c => c ≠ '/').reverse))

/-- pathlib suffix removal on a final component: drop from the last dot
when one exists past the first character, else keep the name. -/
def dropExt (name : List Char) : List Char :=
  match name.reverse.dropWhile fun c => c ≠ '.' with
  | [] => name
  | _ :: restRev => if restRev.isEmpty then name else restRev.reverse

/-- Model of PurePath.with_suffix. -/
def withSuffix (p : String) (suf : String) : String :=
  ⟨(lastComponentSplit p.data).1 ++ dropExt (lastComponentSplit p.data).2 ++ suf.data⟩

/-- Model of PurePath.stem. -/
def pathStem (p : String) : String := ⟨dropExt (lastComponentSplit p.data).2⟩

/-- Model of PurePath.parent as a string prefix with its trailing slash. -/
def pathDir (p : String) : String := ⟨(lastComponentSplit p.data).1⟩

/-- The values the loop leaks into the serialization code: the scenario's
ensemble, its output_basename and its output_filename. -/
structure ScenOut where
  ens : String
  basename : String
  ofn : String
deriving DecidableEq, Repr

/-- One iteration of the per-rcp loop: fetch the datasets, subset them
(raising ProcessError when nothing remains), compute intermediate
variables, compute the indices once per input group, and build the
scenario ensemble. -/
def runScenario (env : HandlerEnv) (baseDir : String) (psL : List Int)
    (rcp : String) : List Ev × Except PErr ScenOut :=
  let workdir := baseDir ++ "/" ++ rcp
  let ofn := env.outputFilename rcp
  let datasets := env.getDatasets rcp
  let files := env.subsetF datasets
  if files = [] then
    ([Ev.fetch rcp, Ev.subsetEv rcp],
     Except.error (PErr.processError
       "No data was produced when subsetting using the provided bounds."))
  else
    let ifiles := env.intermediate files
    let groups := env.indicatorInputs ifiles
    let outs := groups.map env.computeIndices
    let ens := env.makeEnsembleF outs psL
    ([Ev.fetch rcp, Ev.subsetEv rcp, Ev.intermediateEv rcp] ++
       (List.range groups.length).map (Ev.indicesEv rcp) ++ [Ev.ensembleEv rcp psL],
     Except.ok ⟨ens, workdir ++ "/" ++ (ofn ++ "_ensemble"), ofn⟩)

/-- The loop over the requested rcps: events accumulate and the first
raised exception propagates, ending the loop. -/
def runScenarios (env : HandlerEnv) (baseDir : String) (psL : List Int) :
    List String → List Ev × Except PErr (List ScenOut)
  | [] => ([], Except.ok [])
  | rcp :: rcps =>
    let r1 := runScenario env baseDir psL rcp
    match r1.2 with
    | Except.error e => (r1.1, Except.error e)
    | Except.ok s =>
      let r2 := runScenarios env baseDir psL rcps
      match r2.2 with
      | Except.error e => (r1.1 ++ r2.1, Except.error e)
      | Except.ok ss => (r1.1 ++ r2.1, Except.ok (s :: ss))

/-- ensemble_common_handler: parse the percentiles, strip the rcp inputs,
run every scenario, combine the ensembles (an xr.concat along a new rcp
dimension when more than one scenario was requested), and serialize either
a CSV plus metadata zip or a single NetCDF according to output_format,
using the basename and filename leaked from the last loop iteration. -/
def ensemble_common_handler (env : HandlerEnv) (args : HandlerArgs) :
    List Ev × Except PErr HandlerOut :=
  match parsePercs args.ensemble_percentiles with
  | none => ([], Except.error PErr.valueError)
  | some psL =>
    match (runScenarios env args.baseDir psL (args.rcp_inputs.map pyStrip)).2 with
    | Except.error e =>
      ((runScenarios env args.baseDir psL (args.rcp_inputs.map pyStrip)).1,
       Except.error e)
    | Except.ok souts =>
      match souts with
      | [] =>
        ((runScenarios env args.baseDir psL (args.rcp_inputs.map pyStrip)).1,
         Except.error PErr.indexError)
      | s0 :: rest =>
        ((runScenarios env args.baseDir psL (args.rcp_inputs.map pyStrip)).1
           ++ [Ev.serializeEv],
         Except.ok
           ⟨(if (args.rcp_inputs.map pyStrip).length > 1 then
               Combined.concat "rcp" (args.rcp_inputs.map pyStrip)
                 ((s0 :: rest).map fun s => s.ens)
             else Combined.single s0.ens),
            (if args.output_format = "csv" then
               OutputFile.zipArchive (args.baseDir ++ "/"
                   ++ (((s0 :: rest).getLastD s0).ofn ++ ".zip"))
                 [pathDir ((s0 :: rest).getLastD s0).basename
                    ++ (pathStem (withSuffix ((s0 :: rest).getLastD s0).basename ".csv")
                       ++ "_metadata.txt"),
                  withSuffix ((s0 :: rest).getLastD s0).basename ".csv"]
             else OutputFile.netcdf
               (withSuffix ((s0 :: rest).getLastD s0).basename ".nc"))⟩)

/-- Number of indicator input groups built for an rcp. -/
def groupsCount (env : HandlerEnv) (rcp : String) : ℕ :=
  (env.indicatorInputs (env.intermediate (env.subsetF (env.getDatasets rcp)))).length

/-- The event block of one successfully processed scenario: fetch, subset,
intermediate variables, one indices computation per input group, then the
ensemble construction. -/
def scenTrace (env : HandlerEnv) (psL : List Int) (rcp : String) : List Ev :=
  [Ev.fetch rcp, Ev.subsetEv rcp, Ev.intermediateEv rcp] ++
    (List.range (groupsCount env rcp)).map (Ev.indicesEv rcp) ++
    [Ev.ensembleEv rcp psL]

/-- The ensemble a successful scenario produces. -/
def scenEnsemble (env : HandlerEnv) (psL : List Int) (rcp : String) : String :=
  env.makeEnsembleF
    ((env.indicatorInputs (env.intermediate (env.subsetF (env.getDatasets rcp)))).map
      env.computeIndices) psL

/-- The full result record of a successful scenario. -/
def scenOut (env : HandlerEnv) (baseDir : String) (psL : List Int)
    (rcp : String) : ScenOut :=
  ⟨scenEnsemble env psL rcp,
   baseDir ++ "/" ++ rcp ++ "/" ++ (env.outputFilename rcp ++ "_ensemble"),
   env.outputFilename rcp⟩

-- THEOREMS

/-- Every element of splitsFrom cs is a decomposition of cs with a
nonempty front part. -/
theorem splitsFrom_mem {cs : List Char} {p : List Char × List Char}
    (h : p ∈ splitsFrom cs) : cs = p.1 ++ p.2 ∧ p.1 ≠ [] := by
  unfold splitsFrom at h
  simp only [List.mem_map, List.mem_range] at h
  obtain ⟨n, hn, rfl⟩ := h
  constructor
  · exact (List.take_append_drop (n + 1) cs).symm
  · show cs.take (n + 1) ≠ []
    intro hnil
    have hl : (cs.take (n + 1)).length = 0 := by rw [hnil]; rfl
    rw [List.length_take] at hl
    omega

/-- The decomposition of pre ++ suf at pre occurs in splitsFrom. -/
theorem mem_splitsFrom (pre suf : List Char) (h : pre ≠ []) :
    (pre, suf) ∈ splitsFrom (pre ++ suf) := by
  unfold splitsFrom
  simp only [List.mem_map, List.mem_range]
  refine ⟨pre.length - 1, ?_, ?_⟩
  · have : 1 ≤ pre.length := List.length_pos.mpr h
    simp only [List.length_append]
    omega
  · have hlen : pre.length - 1 + 1 = pre.length := by
      have : 1 ≤ pre.length := List.length_pos.mpr h
      omega
    rw [hlen, List.take_left, List.drop_left]

/-- A successful case-insensitive prefix test decomposes the input into a
case variant of the literal followed by the rest. -/
theorem ciPrefix_decomp :
    ∀ (s cs : List Char), ciPrefixOf s cs = true →
      ∃ pre rest, cs = pre ++ rest ∧ pre.length = s.length ∧
        lowChars pre = lowChars s := by
  intro s
  induction s with
  | nil => intro cs _; exact ⟨[], cs, rfl, rfl, rfl⟩
  | cons a as ih =>
    intro cs h
    cases cs with
    | nil => simp [ciPrefixOf] at h
    | cons b bs =>
      rw [ciPrefixOf, Bool.and_eq_true_iff] at h
      obtain ⟨hab, htail⟩ := h
      have hab' : a.toLower = b.toLower := beq_iff_eq.mp hab
      obtain ⟨pre, rest, hdec, hlen, hlow⟩ := ih bs htail
      refine ⟨b :: pre, rest, by rw [hdec]; rfl, by simp [hlen], ?_⟩
      show Char.toLower b :: lowChars pre = Char.toLower a :: lowChars as
      rw [hlow, ← hab']

/-- A decomposition whose front is a case variant of the literal passes
the case-insensitive prefix test. -/
theorem ciPrefix_of_decomp :
    ∀ (s pre rest : List Char), lowChars pre = lowChars s →
      ciPrefixOf s (pre ++ rest) = true := by
  intro s
  induction s with
  | nil =>
    intro pre rest hlow
    cases pre with
    | nil => rfl
    | cons b pre' => exact absurd hlow (by simp [lowChars])
  | cons a as ih =>
    intro pre rest hlow
    cases pre with
    | nil => exact absurd hlow (by simp [lowChars])
    | cons b pre' =>
      have hlow' : Char.toLower b :: lowChars pre' =
          Char.toLower a :: lowChars as := hlow
      have h1 : Char.toLower b = Char.toLower a := (List.cons.inj hlow').1
      have h2 : lowChars pre' = lowChars as := (List.cons.inj hlow').2
      show ((a.toLower == b.toLower) && ciPrefixOf as (pre' ++ rest)) = true
      rw [Bool.and_eq_true_iff]
      exact ⟨beq_iff_eq.mpr h1.symm, ih pre' rest h2⟩

/-- Soundness of the matcher: a successful match decomposes the input into
case variants of the pattern's literals interleaved with the captures,
with one nonempty capture per field, captured verbatim. -/
theorem matchToks_sound :
    ∀ (ts : List Tok) (cs : List Char) (caps : List (List Char)),
      matchToks ts cs = some caps →
        ∃ lvs : List (List Char),
          List.Forall₂ (fun lv l => lowChars lv = lowChars l) lvs (litsOf ts) ∧
          cs = fillToksCI ts lvs caps ∧ caps.length = countFields ts ∧
          ∀ c ∈ caps, c ≠ [] := by
  intro ts
  induction ts with
  | nil =>
    intro cs caps h
    cases cs with
    | nil =>
      simp only [matchToks, Option.some.injEq] at h
      subst h
      exact ⟨[], List.Forall₂.nil, rfl, rfl, by simp⟩
    | cons c rest => simp [matchToks] at h
  | cons t ts ih =>
    intro cs caps h
    cases t with
    | lit s =>
      simp only [matchToks] at h
      split at h
      · rename_i hpre
        obtain ⟨pre, rest, hdec, hlen, hlow⟩ := ciPrefix_decomp s cs hpre
        have hdrop : cs.drop s.length = rest := by
          rw [hdec, ← hlen, List.drop_left]
        rw [hdrop] at h
        obtain ⟨lvs, hfa, hfill, hclen, hcne⟩ := ih _ _ h
        refine ⟨pre :: lvs, List.Forall₂.cons hlow hfa, ?_, hclen, hcne⟩
        show cs = pre ++ fillToksCI ts lvs caps
        rw [hdec, ← hfill]
      · exact absurd h (by simp)
    | field =>
      simp only [matchToks] at h
      obtain ⟨p, hmem, hp⟩ := List.exists_of_findSome?_eq_some h
      cases hcall : matchToks ts p.2 with
      | none => rw [hcall] at hp; simp at hp
      | some caps' =>
        rw [hcall] at hp
        simp only [Option.map_some', Option.some.injEq] at hp
        obtain ⟨hdec, hne⟩ := splitsFrom_mem hmem
        obtain ⟨lvs, hfa, hfill, hclen, hcne⟩ := ih _ _ hcall
        subst hp
        refine ⟨lvs, hfa, ?_, ?_, ?_⟩
        · show cs = p.1 ++ fillToksCI ts lvs caps'
          rw [hdec, ← hfill]
        · rw [countFields, List.length_cons, hclen]
        · intro c hc
          rcases List.mem_cons.mp hc with hc | hc
          · subst hc; exact hne
          · exact hcne c hc

/-- If any element of the list produces a value, findSome? produces one. -/
theorem findSome?_isSome_of_mem {α β : Type} {f : α → Option β} {l : List α} {a : α}
    (hmem : a ∈ l) (hsome : (f a).isSome) : (l.findSome? f).isSome := by
  induction l with
  | nil => simp at hmem
  | cons x xs ih =>
    rw [List.findSome?_cons]
    cases hx : f x with
    | some b => simp
    | none =>
      rcases List.mem_cons.mp hmem with rfl | hmem'
      · rw [hx] at hsome; simp at hsome
      · exact ih hmem'

/-- Completeness of the matcher: any decomposition witnesses a match. -/
theorem matchToks_complete {ts : List Tok} {cs : List Char}
    (h : Matched ts cs) : (matchToks ts cs).isSome := by
  induction h with
  | nil => simp [matchToks]
  | lit s pre ts cs hlow _ ih =>
    have hpre : ciPrefixOf s (pre ++ cs) = true := ciPrefix_of_decomp s pre cs hlow
    have hlen : pre.length = s.length := by
      have := congrArg List.length hlow
      simpa [lowChars] using this
    simp only [matchToks, hpre, if_true]
    rw [← hlen, List.drop_left]
    exact ih
  | field pre ts cs hne _ ih =>
    simp only [matchToks]
    refine findSome?_isSome_of_mem (mem_splitsFrom pre cs hne) ?_
    cases hcall : matchToks ts cs with
    | none => rw [hcall] at ih; simp at ih
    | some caps => simp

/-- Compatible literal variants and a capture list of the right shape
realize their pattern. -/
theorem matched_fillToksCI :
    ∀ (ts : List Tok) (lvs caps : List (List Char)),
      List.Forall₂ (fun lv l => lowChars lv = lowChars l) lvs (litsOf ts) →
      caps.length = countFields ts → (∀ c ∈ caps, c ≠ []) →
      Matched ts (fillToksCI ts lvs caps) := by
  intro ts
  induction ts with
  | nil =>
    intro lvs caps _ _ _
    exact Matched.nil
  | cons t ts ih =>
    intro lvs caps hfa hlen hne
    cases t with
    | lit s =>
      have hfa' : List.Forall₂ (fun lv l => lowChars lv = lowChars l) lvs
          (s :: litsOf ts) := hfa
      cases hfa' with
      | cons hlow htail =>
        rename_i lv lvs'
        rw [countFields] at hlen
        exact Matched.lit s lv ts _ hlow (ih lvs' caps htail hlen hne)
    | field =>
      cases caps with
      | nil => rw [countFields] at hlen; simp at hlen
      | cons c caps' =>
        rw [countFields, List.length_cons] at hlen
        have hfa' : List.Forall₂ (fun lv l => lowChars lv = lowChars l) lvs
            (litsOf ts) := hfa
        refine Matched.field c ts _ (hne c (List.mem_cons_self c caps')) ?_
        exact ih lvs caps' hfa' (by omega) (fun x hx => hne x (List.mem_cons_of_mem c hx))

/-- A string built from a nonempty character list is not the empty string. -/
theorem strmk_ne_empty {c : List Char} (h : c ≠ []) : (⟨c⟩ : String) ≠ "" :=
  fun he => h (congrArg String.data he)

/-- A list of length nine is a nine-element literal. -/
theorem list_len_nine {α : Type} {l : List α} (h : l.length = 9) :
    ∃ a1 a2 a3 a4 a5 a6 a7 a8 a9, l = [a1, a2, a3, a4, a5, a6, a7, a8, a9] := by
  rcases l with _ | ⟨c1, _ | ⟨c2, _ | ⟨c3, _ | ⟨c4, _ | ⟨c5, _ | ⟨c6, _ |
    ⟨c7, _ | ⟨c8, _ | ⟨c9, _ | ⟨c10, rest⟩⟩⟩⟩⟩⟩⟩⟩⟩⟩ <;>
    simp only [List.length_cons, List.length_nil] at h <;>
    first
      | exact ⟨c1, c2, c3, c4, c5, c6, c7, c8, c9, rfl⟩
      | omega

/-- The character list of an assembled filename is the pattern filled with
the given separator chunks and the record's segments. -/
theorem rebuildWith_data (b : Bccaqv2File) (l1 l2 l3 l4 l5 l6 l7 l8 l9 : String) :
    (b.rebuildWith l1 l2 l3 l4 l5 l6 l7 l8 l9).data =
      fillToksCI bccaqToks
        [l1.data, l2.data, l3.data, l4.data, l5.data, l6.data, l7.data,
         l8.data, l9.data]
        [b.«variable».data, b.frequency.data, b.driving_model_id.data,
         b.driving_experiment_id.data, b.driving_realization.data,
         b.driving_initialization_method.data, b.driving_physics_version.data,
         b.date_start.data, b.date_end.data] := by
  simp [Bccaqv2File.rebuildWith, bccaqToks, fillToksCI, String.data_append]

/-- C5 — amended: the parse library compiles its pattern with
re.IGNORECASE, so Bccaqv2File.from_filename returns a record exactly for
filenames of the underscore-separated BCCAQv2+ANUSPLIN300 form in which
the fixed separator segments are matched up to character case (every
field segment nonempty and captured verbatim); any other filename yields
none rather than an exception. -/
theorem claim_c5_from_filename (s : String) :
    ((Bccaqv2File.from_filename s).isSome ↔
      ∃ b : Bccaqv2File, b.wellFormed ∧
        ∃ l1 l2 l3 l4 l5 l6 l7 l8 l9 : String,
          sepVariants l1 l2 l3 l4 l5 l6 l7 l8 l9 ∧
          s = b.rebuildWith l1 l2 l3 l4 l5 l6 l7 l8 l9) ∧
    ∀ b : Bccaqv2File, Bccaqv2File.from_filename s = some b →
      b.wellFormed ∧
        ∃ l1 l2 l3 l4 l5 l6 l7 l8 l9 : String,
          sepVariants l1 l2 l3 l4 l5 l6 l7 l8 l9 ∧
          s = b.rebuildWith l1 l2 l3 l4 l5 l6 l7 l8 l9 := by
  have hcore : ∀ b : Bccaqv2File, Bccaqv2File.from_filename s = some b →
      b.wellFormed ∧
        ∃ l1 l2 l3 l4 l5 l6 l7 l8 l9 : String,
          sepVariants l1 l2 l3 l4 l5 l6 l7 l8 l9 ∧
          s = b.rebuildWith l1 l2 l3 l4 l5 l6 l7 l8 l9 := by
    intro b hb
    unfold Bccaqv2File.from_filename at hb
    cases hm : matchToks bccaqToks s.data with
    | none => rw [hm] at hb; exact absurd hb (by simp)
    | some caps =>
      rw [hm] at hb
      obtain ⟨lvs, hfa, hfill, h2, h3⟩ := matchToks_sound _ _ _ hm
      have hlen : caps.length = 9 := by rw [h2]; rfl
      obtain ⟨c1, c2, c3, c4, c5, c6, c7, c8, c9, rfl⟩ := list_len_nine hlen
      have hb' : some (⟨⟨c1⟩, ⟨c2⟩, ⟨c3⟩, ⟨c4⟩, ⟨c5⟩, ⟨c6⟩, ⟨c7⟩, ⟨c8⟩, ⟨c9⟩⟩ :
          Bccaqv2File) = some b := hb
      obtain rfl := (Option.some.inj hb').symm
      have hmem : ∀ c ∈ [c1, c2, c3, c4, c5, c6, c7, c8, c9], c ≠ [] := h3
      have hfa' : List.Forall₂ (fun lv l => lowChars lv = lowChars l) lvs
          ["_".data, "_BCCAQv2+ANUSPLIN300_".data, "_".data, "_r".data,
           "i".data, "p".data, "_".data, "-".data, ".nc".data] := hfa
      simp only [List.forall₂_cons_right_iff, List.forall₂_nil_right_iff] at hfa'
      obtain ⟨v1, _, hv1, ⟨v2, _, hv2, ⟨v3, _, hv3, ⟨v4, _, hv4, ⟨v5, _, hv5,
        ⟨v6, _, hv6, ⟨v7, _, hv7, ⟨v8, _, hv8, ⟨v9, _, hv9, rfl, rfl⟩, rfl⟩,
        rfl⟩, rfl⟩, rfl⟩, rfl⟩, rfl⟩, rfl⟩, rfl⟩ := hfa'
      refine ⟨⟨strmk_ne_empty (hmem c1 (by simp)), strmk_ne_empty (hmem c2 (by simp)),
          strmk_ne_empty (hmem c3 (by simp)), strmk_ne_empty (hmem c4 (by simp)),
          strmk_ne_empty (hmem c5 (by simp)), strmk_ne_empty (hmem c6 (by simp)),
          strmk_ne_empty (hmem c7 (by simp)), strmk_ne_empty (hmem c8 (by simp)),
          strmk_ne_empty (hmem c9 (by simp))⟩,
        ⟨v1⟩, ⟨v2⟩, ⟨v3⟩, ⟨v4⟩, ⟨v5⟩, ⟨v6⟩, ⟨v7⟩, ⟨v8⟩, ⟨v9⟩, ?_, ?_⟩
      · exact ⟨congrArg String.mk hv1, congrArg String.mk hv2,
          congrArg String.mk hv3, congrArg String.mk hv4,
          congrArg String.mk hv5, congrArg String.mk hv6,
          congrArg String.mk hv7, congrArg String.mk hv8,
          congrArg String.mk hv9⟩
      · rw [String.ext_iff, rebuildWith_data]
        exact hfill
  refine ⟨⟨?_, ?_⟩, hcore⟩
  · intro h
    obtain ⟨b, hb⟩ := Option.isSome_iff_exists.mp h
    exact ⟨b, hcore b hb⟩
  · rintro ⟨b, hwf, l1, l2, l3, l4, l5, l6, l7, l8, l9, hsep, rfl⟩
    obtain ⟨h1, h2, h3, h4, h5, h6, h7, h8, h9⟩ := hsep
    have hfa : List.Forall₂ (fun lv l => lowChars lv = lowChars l)
        [l1.data, l2.data, l3.data, l4.data, l5.data, l6.data, l7.data,
         l8.data, l9.data]
        ["_".data, "_BCCAQv2+ANUSPLIN300_".data, "_".data, "_r".data,
         "i".data, "p".data, "_".data, "-".data, ".nc".data] :=
      List.Forall₂.cons (congrArg String.data h1)
        (List.Forall₂.cons (congrArg String.data h2)
        (List.Forall₂.cons (congrArg String.data h3)
        (List.Forall₂.cons (congrArg String.data h4)
        (List.Forall₂.cons (congrArg String.data h5)
        (List.Forall₂.cons (congrArg String.data h6)
        (List.Forall₂.cons (congrArg String.data h7)
        (List.Forall₂.cons (congrArg String.data h8)
        (List.Forall₂.cons (congrArg String.data h9) List.Forall₂.nil))))))))
    have hne : ∀ c ∈ [b.«variable».data, b.frequency.data,
        b.driving_model_id.data, b.driving_experiment_id.data,
        b.driving_realization.data, b.driving_initialization_method.data,
        b.driving_physics_version.data, b.date_start.data, b.date_end.data],
        c ≠ [] := by
      obtain ⟨w1, w2, w3, w4, w5, w6, w7, w8, w9⟩ := hwf
      intro c hc
      simp only [List.mem_cons, List.not_mem_nil, or_false] at hc
      rcases hc with rfl | rfl | rfl | rfl | rfl | rfl | rfl | rfl | rfl <;>
        { intro hnil
          first
          | exact w1 (String.ext hnil)
          | exact w2 (String.ext hnil)
          | exact w3 (String.ext hnil)
          | exact w4 (String.ext hnil)
          | exact w5 (String.ext hnil)
          | exact w6 (String.ext hnil)
          | exact w7 (String.ext hnil)
          | exact w8 (String.ext hnil)
          | exact w9 (String.ext hnil) }
    have hmt : Matched bccaqToks (b.rebuildWith l1 l2 l3 l4 l5 l6 l7 l8 l9).data := by
      rw [rebuildWith_data]
      exact matched_fillToksCI _ _ _ hfa rfl hne
    have hsome := matchToks_complete hmt
    obtain ⟨caps, hcaps⟩ := Option.isSome_iff_exists.mp hsome
    obtain ⟨_, _, _, hclen, _⟩ := matchToks_sound _ _ _ hcaps
    have hlen : caps.length = 9 := by rw [hclen]; rfl
    obtain ⟨c1, c2, c3, c4, c5, c6, c7, c8, c9, rfl⟩ := list_len_nine hlen
    unfold Bccaqv2File.from_filename
    rw [hcaps]
    rfl

/-- Witness for C5 at a concrete BCCAQv2 filename. -/
theorem claim_c5_witness :
    Bccaqv2File.wellFormed ⟨"tn", "day", "M1", "hst+rcp45", "1", "1", "1", "2", "3"⟩ ∧
    ∃ l1 l2 l3 l4 l5 l6 l7 l8 l9 : String,
      sepVariants l1 l2 l3 l4 l5 l6 l7 l8 l9 ∧
      "tn_day_BCCAQv2+ANUSPLIN300_M1_hst+rcp45_r1i1p1_2-3.nc" =
        Bccaqv2File.rebuildWith ⟨"tn", "day", "M1", "hst+rcp45", "1", "1", "1", "2", "3"⟩
          l1 l2 l3 l4 l5 l6 l7 l8 l9 :=
  (claim_c5_from_filename "tn_day_BCCAQv2+ANUSPLIN300_M1_hst+rcp45_r1i1p1_2-3.nc").2
    ⟨"tn", "day", "M1", "hst+rcp45", "1", "1", "1", "2", "3"⟩ (by decide)

/-- C5 — counterexample to the exact-form reading of the pattern: the
parse library matches its pattern literals case-insensitively, so
from_filename parses a filename whose BCCAQv2+ANUSPLIN300 separator is
lowercased, although that filename is no record's exact-form rebuild. -/
theorem claim_c5_counterexample :
    (Bccaqv2File.from_filename
        "tn_day_bccaqv2+anusplin300_M1_hst+rcp45_r1i1p1_2-3.nc").isSome = true ∧
    ¬ ∃ b : Bccaqv2File,
        "tn_day_bccaqv2+anusplin300_M1_hst+rcp45_r1i1p1_2-3.nc" = b.rebuild := by
  constructor
  · decide
  · rintro ⟨b, hb⟩
    have hmem : 'B' ∈ "_BCCAQv2+ANUSPLIN300_".data := by decide
    have hB : 'B' ∈ (Bccaqv2File.rebuild b).data := by
      simp only [Bccaqv2File.rebuild, String.data_append, List.mem_append]
      tauto
    rw [← hb] at hB
    exact absurd hB (by decide)

/-- The truthiness-guarded variables check fails exactly when the claim's
variables condition holds. -/
theorem varcond_eq_false_iff (variabs : Option (List String)) (v : String) :
    ((truthyList variabs && !((variabs.getD []).contains v)) = false ↔
      (∀ vs, variabs = some vs → vs ≠ [] → v ∈ vs)) := by
  cases variabs with
  | none => simp [truthyList]
  | some vs =>
    cases vs with
    | nil => simp [truthyList]
    | cons x xs =>
      simp only [truthyList, List.isEmpty_cons, Bool.not_false, Bool.true_and,
        Option.getD_some, Option.some.injEq, Bool.not_eq_false']
      constructor
      · intro h vs' hv _
        obtain rfl := hv.symm
        exact List.elem_iff.mp h
      · intro h
        exact List.elem_iff.mpr (h (x :: xs) rfl (by simp))

/-- The truthiness-guarded rcp check fails exactly when the claim's rcp
condition holds. -/
theorem rcpcond_eq_false_iff (rcp : Option String) (e : String) :
    ((truthyStr rcp && !(strContains e (rcp.getD ""))) = false ↔
      (∀ r, rcp = some r → r ≠ "" → strContains e r = true)) := by
  cases rcp with
  | none => simp [truthyStr]
  | some r =>
    by_cases hr : r = ""
    · subst hr
      simp [truthyStr]
    · have hb : (r != "") = true := bne_iff_ne.mpr hr
      simp only [truthyStr, Option.getD_some, Option.some.injEq, hb, Bool.true_and,
        Bool.not_eq_false']
      constructor
      · intro h r' hv _
        obtain rfl := hv.symm
        exact h
      · intro h
        exact h r rfl hr

/-- Normal form of filterWithModels once the filename parses. -/
theorem filterWithModels_some (K : Bccaqv2Consts) (filename : String)
    (variabs : Option (List String)) (rcp : Option String)
    (modelsL : List String) (parsed : Bccaqv2File)
    (hp : Bccaqv2File.from_filename filename = some parsed) :
    filterWithModels K filename variabs rcp modelsL =
      ((!(truthyList variabs && !((variabs.getD []).contains parsed.«variable»))) &&
       ((!(truthyStr rcp && !(strContains parsed.driving_experiment_id (rcp.getD "")))) &&
        (if modelsL = [pyLower K.PCIC_12] then
          K.PCIC_12_MODELS_REALIZATIONS.any fun mr =>
            (pyLower mr.1 == pyLower parsed.driving_model_id) &&
              (pyDrop1 mr.2 == parsed.driving_realization)
        else
          modelsL.contains (pyLower parsed.driving_model_id) &&
            (parsed.driving_realization == "1")))) := by
  unfold filterWithModels
  rw [hp]
  show (if truthyList variabs && !((variabs.getD []).contains parsed.«variable») then
      false
    else if truthyStr rcp && !(strContains parsed.driving_experiment_id (rcp.getD "")) then
      false
    else if modelsL = [pyLower K.PCIC_12] then
      K.PCIC_12_MODELS_REALIZATIONS.any fun mr =>
        (pyLower mr.1 == pyLower parsed.driving_model_id) &&
          (pyDrop1 mr.2 == parsed.driving_realization)
    else
      modelsL.contains (pyLower parsed.driving_model_id) &&
        (parsed.driving_realization == "1")) = _
  cases hc1 : truthyList variabs && !((variabs.getD []).contains parsed.«variable») <;>
    cases hc2 : truthyStr rcp && !(strContains parsed.driving_experiment_id (rcp.getD "")) <;>
    rfl

/-- When the filename does not parse, the filter rejects. -/
theorem filterWithModels_none (K : Bccaqv2Consts) (filename : String)
    (variabs : Option (List String)) (rcp : Option String)
    (modelsL : List String)
    (hp : Bccaqv2File.from_filename filename = none) :
    filterWithModels K filename variabs rcp modelsL = false := by
  unfold filterWithModels
  rw [hp]

/-- Under a non-PCIC model list, the filter accepts exactly the claim's
default-selection conditions stated for that list. -/
theorem filterWithModels_default_iff (K : Bccaqv2Consts)
    (hne : lowerList K.BCCAQV2_MODELS ≠ [pyLower K.PCIC_12])
    (filename : String) (variabs : Option (List String)) (rcp : Option String) :
    (filterWithModels K filename variabs rcp (lowerList K.BCCAQV2_MODELS) = true ↔
      filterSpecDefault K filename variabs rcp) := by
  constructor
  · intro h
    cases hp : Bccaqv2File.from_filename filename with
    | none => rw [filterWithModels_none K filename variabs rcp _ hp] at h; exact absurd h (by simp)
    | some parsed =>
      rw [filterWithModels_some K filename variabs rcp _ parsed hp, if_neg hne] at h
      obtain ⟨h1, h2, h3⟩ := by
        obtain ⟨ha, hb⟩ := Bool.and_eq_true_iff.mp h
        obtain ⟨hc, hd⟩ := Bool.and_eq_true_iff.mp hb
        exact And.intro ha (And.intro hc hd)
      rw [Bool.not_eq_true'] at h1 h2
      obtain ⟨hmem, hreal⟩ := Bool.and_eq_true_iff.mp h3
      refine ⟨parsed, ⟨hp, (varcond_eq_false_iff variabs _).mp h1,
        (rcpcond_eq_false_iff rcp _).mp h2⟩, ?_, beq_iff_eq.mp hreal⟩
      exact List.elem_iff.mp hmem
  · rintro ⟨p, ⟨hpp, hv, hr⟩, hmem, hreal⟩
    rw [filterWithModels_some K filename variabs rcp _ p hpp, if_neg hne]
    have h1 := (varcond_eq_false_iff variabs p.«variable»).mpr hv
    have h2 := (rcpcond_eq_false_iff rcp p.driving_experiment_id).mpr hr
    rw [h1, h2]
    simp only [Bool.not_false, Bool.true_and]
    exact Bool.and_eq_true_iff.mpr ⟨List.elem_iff.mpr hmem, beq_iff_eq.mpr hreal⟩

/-- Under the PCIC-12 model list, the filter accepts exactly the claim's
PCIC-selection conditions. -/
theorem filterWithModels_pcic_iff (K : Bccaqv2Consts)
    (filename : String) (variabs : Option (List String)) (rcp : Option String) :
    (filterWithModels K filename variabs rcp [pyLower K.PCIC_12] = true ↔
      filterSpecPcic K filename variabs rcp) := by
  constructor
  · intro h
    cases hp : Bccaqv2File.from_filename filename with
    | none => rw [filterWithModels_none K filename variabs rcp _ hp] at h; exact absurd h (by simp)
    | some parsed =>
      rw [filterWithModels_some K filename variabs rcp _ parsed hp, if_pos rfl] at h
      obtain ⟨h1, h2, h3⟩ := by
        obtain ⟨ha, hb⟩ := Bool.and_eq_true_iff.mp h
        obtain ⟨hc, hd⟩ := Bool.and_eq_true_iff.mp hb
        exact And.intro ha (And.intro hc hd)
      rw [Bool.not_eq_true'] at h1 h2
      obtain ⟨mr, hmr, hcond⟩ := List.any_eq_true.mp h3
      obtain ⟨hm, hr⟩ := Bool.and_eq_true_iff.mp hcond
      exact ⟨parsed, ⟨hp, (varcond_eq_false_iff variabs _).mp h1,
        (rcpcond_eq_false_iff rcp _).mp h2⟩, mr, hmr,
        beq_iff_eq.mp hm, beq_iff_eq.mp hr⟩
  · rintro ⟨p, ⟨hpp, hv, hr⟩, mr, hmr, hm, hrr⟩
    rw [filterWithModels_some K filename variabs rcp _ p hpp, if_pos rfl]
    have h1 := (varcond_eq_false_iff variabs p.«variable»).mpr hv
    have h2 := (rcpcond_eq_false_iff rcp p.driving_experiment_id).mpr hr
    rw [h1, h2]
    simp only [Bool.not_false, Bool.true_and]
    exact List.any_eq_true.mpr ⟨mr, hmr,
      Bool.and_eq_true_iff.mpr ⟨beq_iff_eq.mpr hm, beq_iff_eq.mpr hrr⟩⟩

/-- C2 — the dataset-discovery functions return exactly the urls/paths of
the files _bccaqv2_filter selects, in catalog/glob order, and the filter
accepts a filename if and only if the claim's parsing, variable, rcp and
model-selection conditions hold (for the default/all-24 selection and for
the PCIC-12 selection respectively). -/
theorem claim_c2_datasets (K : Bccaqv2Consts)
    (hK : lowerList K.BCCAQV2_MODELS ≠ [pyLower K.PCIC_12])
    (variabs : Option (List String)) (rcp : Option String)
    (models : Option (List String)) (catalog : List TDSDataset) (globFiles : List FPath) :
    (get_bccaqv2_opendap_datasets K catalog variabs rcp models =
      (catalog.filter fun d => bccaqv2_filter K d.name variabs rcp models).map
        fun d => d.opendap_url) ∧
    (get_bccaqv2_local_files_datasets K globFiles variabs rcp models =
      (globFiles.filter fun f => bccaqv2_filter K f.name variabs rcp models).map
        fun f => f.path) ∧
    ∀ filename : String,
      (SelDefault K models →
        (bccaqv2_filter K filename variabs rcp models = true ↔
          filterSpecDefault K filename variabs rcp)) ∧
      (SelPcic K models →
        (bccaqv2_filter K filename variabs rcp models = true ↔
          filterSpecPcic K filename variabs rcp)) := by
  refine ⟨rfl, rfl, fun filename => ⟨?_, ?_⟩⟩
  · intro hsel
    have hm : effectiveModels K models = lowerList K.BCCAQV2_MODELS := by
      rcases hsel with rfl | ⟨ms, rfl, hms⟩
      · rfl
      · show (if lowerList ms = [pyLower K.ALL_24_MODELS] then lowerList K.BCCAQV2_MODELS
          else lowerList ms) = lowerList K.BCCAQV2_MODELS
        rw [if_pos hms]
    unfold bccaqv2_filter
    rw [hm]
    exact filterWithModels_default_iff K hK filename variabs rcp
  · rintro ⟨ms, rfl, hms, hnot⟩
    have hm : effectiveModels K (some ms) = [pyLower K.PCIC_12] := by
      show (if lowerList ms = [pyLower K.ALL_24_MODELS] then lowerList K.BCCAQV2_MODELS
        else lowerList ms) = [pyLower K.PCIC_12]
      rw [if_neg hnot]
      exact hms
    unfold bccaqv2_filter
    rw [hm]
    exact filterWithModels_pcic_iff K filename variabs rcp

/-- Witness for C2: the default-selection equivalence at a concrete
constants record, selection and filename. -/
theorem claim_c2_witness :
    bccaqv2_filter ⟨"24MODELS", "PCIC12", ["CanESM2", "CNRM-CM5"], [("CanESM2", "r1")]⟩
        "tasmin_day_BCCAQv2+ANUSPLIN300_CanESM2_historical+rcp45_r1i1p1_19500101-21001231.nc"
        (some ["tasmin"]) (some "rcp45") none = true ↔
      filterSpecDefault ⟨"24MODELS", "PCIC12", ["CanESM2", "CNRM-CM5"], [("CanESM2", "r1")]⟩
        "tasmin_day_BCCAQv2+ANUSPLIN300_CanESM2_historical+rcp45_r1i1p1_19500101-21001231.nc"
        (some ["tasmin"]) (some "rcp45") :=
  ((claim_c2_datasets ⟨"24MODELS", "PCIC12", ["CanESM2", "CNRM-CM5"], [("CanESM2", "r1")]⟩
      (by decide) (some ["tasmin"]) (some "rcp45") none [] []).2.2
    "tasmin_day_BCCAQv2+ANUSPLIN300_CanESM2_historical+rcp45_r1i1p1_19500101-21001231.nc").1
    (Or.inl rfl)

/-- C7 — progress percentages are monotone and bounded: _draw_bar reports
exactly int(100 * (s + frac * (1 - s))) with s = start_percentage / 100,
which is non-decreasing in frac and lies between start_percentage and 100
on frac ∈ [0, 1]; zip_metalink's reported percentage is non-decreasing in
the 0-based file index and lies in [start_percentage, 100) for every index
below n_files. -/
theorem claim_c7_progress (sp : ℕ) :
    (sp ≤ 100 → ∀ f1 f2 : ℚ, 0 ≤ f1 → f1 ≤ f2 → f2 ≤ 1 →
      draw_bar_percent sp f1 =
        ⌊100 * (((sp : ℚ) / 100) + f1 * (1 - (sp : ℚ) / 100))⌋ ∧
      draw_bar_percent sp f1 ≤ draw_bar_percent sp f2 ∧
      (sp : ℤ) ≤ draw_bar_percent sp f1 ∧ draw_bar_percent sp f1 ≤ 100) ∧
    (sp < 100 → ∀ n1 n2 n_files : ℕ, n1 ≤ n2 → n2 < n_files →
      zip_metalink_percentage sp n1 n_files ≤ zip_metalink_percentage sp n2 n_files ∧
      (sp : ℤ) ≤ zip_metalink_percentage sp n1 n_files ∧
      zip_metalink_percentage sp n1 n_files < 100) := by
  constructor
  · intro hsp f1 f2 hf0 hf12 hf2
    have hs0 : (0 : ℚ) ≤ (sp : ℚ) / 100 := by positivity
    have hs1 : (sp : ℚ) / 100 ≤ 1 := by
      rw [div_le_one (by norm_num)]
      exact_mod_cast hsp
    have hf1 : f1 ≤ 1 := le_trans hf12 hf2
    unfold draw_bar_percent
    refine ⟨by congr 1; ring, ?_, ?_, ?_⟩
    · apply Int.floor_le_floor
      nlinarith
    · rw [Int.le_floor]
      have hsub : (sp : ℚ) = 100 * ((sp : ℚ) / 100) := by ring
      push_cast
      nlinarith
    · have hle : 100 * (f1 + (sp : ℚ) / 100 - f1 * ((sp : ℚ) / 100)) ≤ 100 := by nlinarith
      calc ⌊100 * (f1 + (sp : ℚ) / 100 - f1 * ((sp : ℚ) / 100))⌋ ≤ ⌊(100 : ℚ)⌋ :=
            Int.floor_le_floor hle
        _ = 100 := by norm_num
  · intro hsp n1 n2 n_files h12 h2f
    have hnfn : 0 < n_files := lt_of_le_of_lt (Nat.zero_le n2) h2f
    have hnf : (0 : ℚ) < (n_files : ℚ) := by exact_mod_cast hnfn
    have hspq : (sp : ℚ) < 100 := by exact_mod_cast hsp
    unfold zip_metalink_percentage
    refine ⟨?_, ?_, ?_⟩
    · apply add_le_add_left
      apply Int.floor_le_floor
      have hdiv : (n1 : ℚ) / n_files ≤ (n2 : ℚ) / n_files := by
        apply div_le_div_of_nonneg_right ?_ (le_of_lt hnf)
        exact_mod_cast h12
      apply mul_le_mul_of_nonneg_right hdiv (by linarith)
    · have h0 : (0 : ℤ) ≤ ⌊(n1 : ℚ) / n_files * (100 - (sp : ℚ))⌋ := by
        apply Int.le_floor.mpr
        push_cast
        apply mul_nonneg (by positivity) (by linarith)
      linarith
    · have hn1 : (n1 : ℚ) / n_files < 1 := by
        rw [div_lt_one hnf]
        exact_mod_cast lt_of_le_of_lt h12 h2f
      have hlt : ⌊(n1 : ℚ) / n_files * (100 - (sp : ℚ))⌋ < (100 : ℤ) - (sp : ℤ) := by
        apply Int.floor_lt.mpr
        push_cast
        nlinarith
      linarith

/-- Witness for C7 at start_percentage 90, fractions 0 and 1, and file
indices 0 and 1 of 2. -/
theorem claim_c7_witness :
    (draw_bar_percent 90 0 = ⌊(100 : ℚ) * (((90 : ℕ) : ℚ) / 100 + 0 * (1 - ((90 : ℕ) : ℚ) / 100))⌋ ∧
     draw_bar_percent 90 0 ≤ draw_bar_percent 90 1 ∧
     ((90 : ℕ) : ℤ) ≤ draw_bar_percent 90 0 ∧ draw_bar_percent 90 0 ≤ 100) ∧
    (zip_metalink_percentage 90 0 2 ≤ zip_metalink_percentage 90 1 2 ∧
     ((90 : ℕ) : ℤ) ≤ zip_metalink_percentage 90 0 2 ∧
     zip_metalink_percentage 90 0 2 < 100) :=
  ⟨(claim_c7_progress 90).1 (by norm_num) 0 1 le_rfl (by norm_num) le_rfl,
   (claim_c7_progress 90).2 (by norm_num) 0 1 2 (by norm_num) (by norm_num)⟩

/-- The realization drop keeps the time coordinate. -/
theorem dropRealization_time (ds : MiniDS) :
    (dropRealization ds).timeYears = ds.timeYears := rfl

/-- The day-of-year back-conversion keeps the time coordinate. -/
theorem daysSinceToDoy_time (ds : MiniDS) :
    (daysSinceToDoy ds).timeYears = ds.timeYears := rfl

/-- The day-of-year conversion keeps the time coordinate. -/
theorem doyToDaysSince_time (ds : MiniDS) :
    (doyToDaysSince ds).timeYears = ds.timeYears := rfl

/-- C9 — provided the external percentile reduction keeps the time axis
(as xclim's ensemble_percentiles does), every dataset produced by
make_ensemble has only time steps of year at least 1950, whatever the
input files' time range; and the 1950 selection itself changes neither the
other coordinates nor the data variables. -/
theorem claim_c9_make_ensemble (env : EnsembleEnv)
    (hpct : ∀ ds ps, (env.ensemble_percentiles ds ps).timeYears = ds.timeYears)
    (files : List FPath) (ps : List ℤ) :
    (∀ y ∈ (make_ensemble env files ps).timeYears, 1950 ≤ y) ∧
    (∀ ds : MiniDS, (selFrom1950 ds).coords = ds.coords ∧
      (selFrom1950 ds).dataVars = ds.dataVars) := by
  constructor
  · intro y hy
    have h1 : (make_ensemble env files ps).timeYears =
        (env.create_ensemble files).timeYears.filter fun y => decide (1950 ≤ y) := by
      unfold make_ensemble
      rw [dropRealization_time, daysSinceToDoy_time, hpct, doyToDaysSince_time]
      rfl
    rw [h1] at hy
    have := (List.mem_filter.mp hy).2
    exact of_decide_eq_true this
  · intro ds
    exact ⟨rfl, rfl⟩

/-- Witness for C9 at a concrete environment whose create_ensemble yields
years 1900 and 1960 and whose percentile reduction is the identity. -/
theorem claim_c9_witness :
    (∀ y ∈ (make_ensemble ⟨fun _ => ⟨[1900, 1960], [("lat", ["45"])], [("tx", ⟨0, "K"⟩)]⟩,
        fun ds _ => ds⟩ [] [10, 50, 90]).timeYears, 1950 ≤ y) ∧
    (∀ ds : MiniDS, (selFrom1950 ds).coords = ds.coords ∧
      (selFrom1950 ds).dataVars = ds.dataVars) :=
  claim_c9_make_ensemble _ (fun _ _ => rfl) [] [10, 50, 90]

/-- dlookup succeeds exactly when the key is present. -/
theorem dlookup_isSome_iff (d : List (String × FPath)) (k : String) :
    (dlookup d k).isSome ↔ k ∈ d.map Prod.fst := by
  induction d with
  | nil => simp [dlookup]
  | cons e rest ih =>
    obtain ⟨k', v'⟩ := e
    by_cases h : k' = k
    · subst h
      simp [dlookup]
    · simp [dlookup, h, ih, Ne.symm h]

/-- A successful lookup returns an entry of the dict. -/
theorem dlookup_mem {d : List (String × FPath)} {k : String} {f : FPath}
    (h : dlookup d k = some f) : (k, f) ∈ d := by
  induction d with
  | nil => simp [dlookup] at h
  | cons e rest ih =>
    obtain ⟨k', v'⟩ := e
    by_cases hk : k' = k
    · subst hk
      have h2 : some v' = some f := by rw [← h]; simp [dlookup]
      obtain rfl := Option.some.inj h2
      exact List.mem_cons_self _ _
    · simp only [dlookup, if_neg hk] at h
      exact List.mem_cons_of_mem _ (ih h)

/-- With unique keys, every entry is found by lookup. -/
theorem mem_dlookup {d : List (String × FPath)} {k : String} {f : FPath}
    (hnd : (d.map Prod.fst).Nodup) (h : (k, f) ∈ d) : dlookup d k = some f := by
  induction d with
  | nil => simp at h
  | cons e rest ih =>
    obtain ⟨k', v'⟩ := e
    simp only [List.map_cons, List.nodup_cons] at hnd
    rcases List.mem_cons.mp h with heq | hmem
    · obtain ⟨rfl, rfl⟩ := Prod.mk.injEq .. |>.mp heq.symm
      simp [dlookup]
    · have hk : k' ≠ k := by
        intro hkk
        subst hkk
        exact hnd.1 (List.mem_map.mpr ⟨(k', f), hmem, rfl⟩)
      simp only [dlookup, if_neg hk]
      exact ih hnd.2 hmem

/-- Deletion only removes entries. -/
theorem derase_subset {d : List (String × FPath)} {k : String} :
    ∀ e ∈ derase d k, e ∈ d := by
  induction d with
  | nil => intro e he; simp [derase] at he
  | cons e0 rest ih =>
    obtain ⟨k', v'⟩ := e0
    intro e he
    by_cases hk : k' = k
    · simp only [derase, if_pos hk] at he
      exact List.mem_cons_of_mem _ he
    · simp only [derase, if_neg hk] at he
      rcases List.mem_cons.mp he with rfl | hmem
      · exact List.mem_cons_self _ _
      · exact List.mem_cons_of_mem _ (ih e hmem)

/-- Entries with a different key survive deletion. -/
theorem mem_derase_of_ne {d : List (String × FPath)} {k : String} {e : String × FPath}
    (he : e ∈ d) (hne : e.1 ≠ k) : e ∈ derase d k := by
  induction d with
  | nil => simp at he
  | cons e0 rest ih =>
    obtain ⟨k', v'⟩ := e0
    by_cases hk : k' = k
    · simp only [derase, if_pos hk]
      rcases List.mem_cons.mp he with rfl | hmem
      · exact absurd hk hne
      · exact hmem
    · simp only [derase, if_neg hk]
      rcases List.mem_cons.mp he with rfl | hmem
      · exact List.mem_cons_self _ _
      · exact List.mem_cons_of_mem _ (ih hmem)

/-- An entry removed by deletion carried the deleted key. -/
theorem eq_key_of_not_mem_derase {d : List (String × FPath)} {k : String}
    {e : String × FPath} (he : e ∈ d) (hne : e ∉ derase d k) : e.1 = k := by
  by_contra hx
  exact hne (mem_derase_of_ne he hx)

/-- Deletion shrinks the key set. -/
theorem keys_derase_sub {d : List (String × FPath)} {k : String} :
    ∀ n ∈ (derase d k).map Prod.fst, n ∈ d.map Prod.fst := by
  intro n hn
  obtain ⟨e, he, rfl⟩ := List.mem_map.mp hn
  exact List.mem_map.mpr ⟨e, derase_subset e he, rfl⟩

/-- Deletion preserves key uniqueness. -/
theorem keys_derase_nodup {d : List (String × FPath)} {k : String}
    (h : (d.map Prod.fst).Nodup) : ((derase d k).map Prod.fst).Nodup := by
  induction d with
  | nil => simp [derase]
  | cons e0 rest ih =>
    obtain ⟨k', v'⟩ := e0
    simp only [List.map_cons, List.nodup_cons] at h
    by_cases hk : k' = k
    · simp only [derase, if_pos hk]
      exact h.2
    · simp only [derase, if_neg hk, List.map_cons, List.nodup_cons]
      exact ⟨fun hmem => h.1 (keys_derase_sub _ hmem), ih h.2⟩

/-- With unique keys, the deleted key is gone. -/
theorem not_mem_keys_derase {d : List (String × FPath)} {k : String}
    (h : (d.map Prod.fst).Nodup) : k ∉ (derase d k).map Prod.fst := by
  induction d with
  | nil => simp [derase]
  | cons e0 rest ih =>
    obtain ⟨k', v'⟩ := e0
    simp only [List.map_cons, List.nodup_cons] at h
    by_cases hk : k' = k
    · simp only [derase, if_pos hk]
      rw [← hk]
      exact h.1
    · simp only [derase, if_neg hk, List.map_cons]
      intro hmem
      rcases List.mem_cons.mp hmem with heq | hmem'
      · exact hk heq.symm
      · exact ih h.2 hmem'

/-- The inserted entry is present after insertion. -/
theorem mem_dinsert_self (d : List (String × FPath)) (k : String) (v : FPath) :
    (k, v) ∈ dinsert d k v := by
  induction d with
  | nil => simp [dinsert]
  | cons e0 rest ih =>
    obtain ⟨k', v'⟩ := e0
    by_cases hk : k' = k
    · simp [dinsert, hk]
    · simp only [dinsert, if_neg hk]
      exact List.mem_cons_of_mem _ ih

/-- Entries with another key survive insertion. -/
theorem mem_dinsert_of_ne {d : List (String × FPath)} {k : String} {v : FPath}
    {e : String × FPath} (he : e ∈ d) (hne : e.1 ≠ k) : e ∈ dinsert d k v := by
  induction d with
  | nil => simp at he
  | cons e0 rest ih =>
    obtain ⟨k', v'⟩ := e0
    by_cases hk : k' = k
    · simp only [dinsert, if_pos hk]
      rcases List.mem_cons.mp he with rfl | hmem
      · exact absurd hk hne
      · exact List.mem_cons_of_mem _ hmem
    · simp only [dinsert, if_neg hk]
      rcases List.mem_cons.mp he with rfl | hmem
      · exact List.mem_cons_self _ _
      · exact List.mem_cons_of_mem _ (ih hmem)

/-- An entry after insertion was present before or is the inserted one. -/
theorem dinsert_sub {d : List (String × FPath)} {k : String} {v : FPath} :
    ∀ e ∈ dinsert d k v, e ∈ d ∨ e = (k, v) := by
  induction d with
  | nil => intro e he; simp [dinsert] at he; simp [he]
  | cons e0 rest ih =>
    obtain ⟨k', v'⟩ := e0
    intro e he
    by_cases hk : k' = k
    · simp only [dinsert, if_pos hk] at he
      rcases List.mem_cons.mp he with rfl | hmem
      · exact Or.inr rfl
      · exact Or.inl (List.mem_cons_of_mem _ hmem)
    · simp only [dinsert, if_neg hk] at he
      rcases List.mem_cons.mp he with rfl | hmem
      · exact Or.inl (List.mem_cons_self _ _)
      · rcases ih e hmem with h | h
        · exact Or.inl (List.mem_cons_of_mem _ h)
        · exact Or.inr h

/-- Keys after insertion. -/
theorem keys_dinsert_sub {d : List (String × FPath)} {k : String} {v : FPath} :
    ∀ n ∈ (dinsert d k v).map Prod.fst, n ∈ d.map Prod.fst ∨ n = k := by
  intro n hn
  obtain ⟨e, he, rfl⟩ := List.mem_map.mp hn
  rcases dinsert_sub e he with h | h
  · exact Or.inl (List.mem_map.mpr ⟨e, h, rfl⟩)
  · subst h
    exact Or.inr rfl

/-- Insertion preserves key uniqueness. -/
theorem keys_dinsert_nodup {d : List (String × FPath)} {k : String} {v : FPath}
    (h : (d.map Prod.fst).Nodup) : ((dinsert d k v).map Prod.fst).Nodup := by
  induction d with
  | nil => simp [dinsert]
  | cons e0 rest ih =>
    obtain ⟨k', v'⟩ := e0
    simp only [List.map_cons, List.nodup_cons] at h
    by_cases hk : k' = k
    · subst hk
      have hd : dinsert ((k', v') :: rest) k' v = (k', v) :: rest := by simp [dinsert]
      rw [hd]
      simp only [List.map_cons, List.nodup_cons]
      exact h
    · simp only [dinsert, if_neg hk, List.map_cons, List.nodup_cons]
      refine ⟨fun hmem => ?_, ih h.2⟩
      rcases keys_dinsert_sub _ hmem with hmem' | rfl
      · exact h.1 hmem'
      · exact hk rfl

/-- Underscore-free variable prefixes decompose names uniquely. -/
theorem decomp_unique : ∀ (v1 : List Char) {v2 r1 r2 : List Char},
    '_' ∉ v1 → '_' ∉ v2 → v1 ++ '_' :: r1 = v2 ++ '_' :: r2 → v1 = v2 ∧ r1 = r2 := by
  intro v1
  induction v1 with
  | nil =>
    intro v2 r1 r2 _ h2 heq
    cases v2 with
    | nil =>
      simp only [List.nil_append, List.cons.injEq] at heq
      exact ⟨rfl, heq.2⟩
    | cons c v2' =>
      exfalso
      simp only [List.nil_append, List.cons_append, List.cons.injEq] at heq
      exact h2 (heq.1 ▸ List.mem_cons_self c v2')
  | cons c v1' ih =>
    intro v2 r1 r2 h1 h2 heq
    cases v2 with
    | nil =>
      exfalso
      simp only [List.cons_append, List.nil_append, List.cons.injEq] at heq
      exact h1 (heq.1 ▸ List.mem_cons_self c v1')
    | cons c2 v2' =>
      simp only [List.cons_append, List.cons.injEq] at heq
      obtain ⟨rfl, heq'⟩ := heq
      have h1' : '_' ∉ v1' := fun hx => h1 (List.mem_cons_of_mem _ hx)
      have h2' : '_' ∉ v2' := fun hx => h2 (List.mem_cons_of_mem _ hx)
      obtain ⟨rfl, rfl⟩ := ih h1' h2' heq'
      exact ⟨rfl, rfl⟩

/-- replaceFirstAux on a string that starts with the needle replaces that
leading occurrence. -/
theorem replaceFirstAux_of_prefix (old new tail : List Char) (h0 : old ≠ []) :
    replaceFirstAux old new (old ++ tail) = new ++ tail := by
  cases old with
  | nil => exact absurd rfl h0
  | cons oc orest =>
    have hpre : (oc :: orest).isPrefixOf (oc :: (orest ++ tail)) = true :=
      List.isPrefixOf_iff_prefix.mpr ⟨tail, rfl⟩
    show replaceFirstAux (oc :: orest) new (oc :: (orest ++ tail)) = new ++ tail
    unfold replaceFirstAux
    rw [if_pos hpre]
    have hdrop : (oc :: (orest ++ tail)).drop (oc :: orest).length = tail := by
      have : oc :: (orest ++ tail) = (oc :: orest) ++ tail := rfl
      rw [this, List.drop_left]
    rw [hdrop]

/-- replaceFirst on a name starting with the old string swaps the prefix. -/
theorem replaceFirst_data (s old new : String) (tail : List Char)
    (h : s.data = old.data ++ tail) :
    (replaceFirst s old new).data = new.data ++ tail := by
  unfold replaceFirst
  by_cases h0 : old.data = []
  · rw [if_pos h0]
    show new.data ++ s.data = new.data ++ tail
    rw [h, h0, List.nil_append]
  · rw [if_neg h0]
    show replaceFirstAux old.data new.data s.data = new.data ++ tail
    rw [h]
    exact replaceFirstAux_of_prefix _ _ _ h0

/-- collectOthers only removes entries from the dict. -/
theorem collectOthers_sub (anchor v : String) :
    ∀ (ovs : List String) (fns : List (String × FPath)),
      ∀ e ∈ (collectOthers anchor v ovs fns).2, e ∈ fns := by
  intro ovs
  induction ovs with
  | nil =>
    intro fns e he
    simpa [collectOthers] using he
  | cons ov ovs ih =>
    intro fns e he
    cases hl : dlookup fns (replaceFirst anchor v ov) with
    | some f =>
      simp only [collectOthers, hl] at he
      exact derase_subset e (ih _ e he)
    | none =>
      simp only [collectOthers, hl] at he
      exact ih _ e he

/-- collectOthers keeps the dict keys unique. -/
theorem collectOthers_keys_nodup (anchor v : String) :
    ∀ (ovs : List String) (fns : List (String × FPath)),
      (fns.map Prod.fst).Nodup →
      (((collectOthers anchor v ovs fns).2).map Prod.fst).Nodup := by
  intro ovs
  induction ovs with
  | nil =>
    intro fns hnd
    simpa [collectOthers] using hnd
  | cons ov ovs ih =>
    intro fns hnd
    cases hl : dlookup fns (replaceFirst anchor v ov) with
    | some f =>
      simp only [collectOthers, hl]
      exact ih _ (keys_derase_nodup hnd)
    | none =>
      simp only [collectOthers, hl]
      exact ih _ hnd

/-- Every collected entry pairs a candidate variable with the dict entry
found under the prefix-replaced name. -/
theorem collectOthers_group_mem (anchor v : String) :
    ∀ (ovs : List String) (fns : List (String × FPath)),
      ∀ p ∈ (collectOthers anchor v ovs fns).1,
        p.1 ∈ ovs ∧ (replaceFirst anchor v p.1, p.2) ∈ fns := by
  intro ovs
  induction ovs with
  | nil =>
    intro fns p hp
    simp [collectOthers] at hp
  | cons ov ovs ih =>
    intro fns p hp
    cases hl : dlookup fns (replaceFirst anchor v ov) with
    | some f =>
      simp only [collectOthers, hl] at hp
      rcases List.mem_cons.mp hp with rfl | hmem
      · exact ⟨List.mem_cons_self _ _, dlookup_mem hl⟩
      · obtain ⟨h1, h2⟩ := ih _ p hmem
        exact ⟨List.mem_cons_of_mem _ h1, derase_subset _ h2⟩
    | none =>
      simp only [collectOthers, hl] at hp
      obtain ⟨h1, h2⟩ := ih _ p hp
      exact ⟨List.mem_cons_of_mem _ h1, h2⟩

/-- With unique keys, a dict entry either survives collectOthers or is
collected under the candidate whose replaced name is its key. -/
theorem collectOthers_account (anchor v : String) :
    ∀ (ovs : List String) (fns : List (String × FPath)) (e : String × FPath),
      (fns.map Prod.fst).Nodup → e ∈ fns →
      e ∈ (collectOthers anchor v ovs fns).2 ∨
        ∃ ov ∈ ovs, (ov, e.2) ∈ (collectOthers anchor v ovs fns).1 ∧
          e.1 = replaceFirst anchor v ov := by
  intro ovs
  induction ovs with
  | nil =>
    intro fns e _ he
    left
    simpa [collectOthers] using he
  | cons ov ovs ih =>
    intro fns e hnd he
    cases hl : dlookup fns (replaceFirst anchor v ov) with
    | some f =>
      by_cases hin : e ∈ derase fns (replaceFirst anchor v ov)
      · rcases ih _ e (keys_derase_nodup hnd) hin with h | ⟨ov', hov', hg, hk⟩
        · left
          simp only [collectOthers, hl]
          exact h
        · right
          refine ⟨ov', List.mem_cons_of_mem _ hov', ?_, hk⟩
          simp only [collectOthers, hl]
          exact List.mem_cons_of_mem _ hg
      · have hk : e.1 = replaceFirst anchor v ov := eq_key_of_not_mem_derase he hin
        have hle : dlookup fns e.1 = some e.2 := by
          obtain ⟨k, x⟩ := e
          exact mem_dlookup hnd he
        rw [hk, hl] at hle
        obtain rfl := Option.some.inj hle
        right
        refine ⟨ov, List.mem_cons_self _ _, ?_, hk⟩
        simp only [collectOthers, hl]
        exact List.mem_cons_self _ _
    | none =>
      rcases ih _ e hnd he with h | ⟨ov', hov', hg, hk⟩
      · left
        simp only [collectOthers, hl]
        exact h
      · right
        refine ⟨ov', List.mem_cons_of_mem _ hov', ?_, hk⟩
        simp only [collectOthers, hl]
        exact hg

/-- With unique keys and injective replaced names, every dict entry keyed
by a candidate's replaced name is collected with that candidate. -/
theorem collectOthers_complete (anchor v : String) :
    ∀ (ovs : List String) (fns : List (String × FPath)),
      (fns.map Prod.fst).Nodup →
      (∀ ov1 ∈ ovs, ∀ ov2 ∈ ovs,
        replaceFirst anchor v ov1 = replaceFirst anchor v ov2 → ov1 = ov2) →
      ∀ ov ∈ ovs, ∀ f : FPath, (replaceFirst anchor v ov, f) ∈ fns →
        (ov, f) ∈ (collectOthers anchor v ovs fns).1 := by
  intro ovs
  induction ovs with
  | nil =>
    intro fns _ _ ov hov
    simp at hov
  | cons ov0 ovs ih =>
    intro fns hnd hinj ov hov f hf
    cases hl : dlookup fns (replaceFirst anchor v ov0) with
    | some f0 =>
      by_cases hovk : replaceFirst anchor v ov = replaceFirst anchor v ov0
      · have hov0 : ov = ov0 :=
          hinj ov hov ov0 (List.mem_cons_self _ _) hovk
        subst hov0
        have : dlookup fns (replaceFirst anchor v ov) = some f := mem_dlookup hnd hf
        rw [hl] at this
        obtain rfl := Option.some.inj this
        simp only [collectOthers, hl]
        exact List.mem_cons_self _ _
      · have hov' : ov ∈ ovs := by
          rcases List.mem_cons.mp hov with rfl | h
          · exact absurd rfl hovk
          · exact h
        have hf' : (replaceFirst anchor v ov, f) ∈ derase fns (replaceFirst anchor v ov0) :=
          mem_derase_of_ne hf hovk
        have hg := ih _ (keys_derase_nodup hnd)
          (fun a ha b hb => hinj a (List.mem_cons_of_mem _ ha) b (List.mem_cons_of_mem _ hb))
          ov hov' f hf'
        simp only [collectOthers, hl]
        exact List.mem_cons_of_mem _ hg
    | none =>
      have hov' : ov ∈ ovs := by
        rcases List.mem_cons.mp hov with rfl | h
        · exfalso
          have : dlookup fns (replaceFirst anchor v ov) = some f := mem_dlookup hnd hf
          rw [hl] at this
          exact Option.noConfusion this
        · exact h
      have hg := ih _ hnd
        (fun a ha b hb => hinj a (List.mem_cons_of_mem _ ha) b (List.mem_cons_of_mem _ hb))
        ov hov' f hf
      simp only [collectOthers, hl]
      exact hg

/-- A collected entry's key is absent from the dict collectOthers returns. -/
theorem collectOthers_key_gone (anchor v : String) :
    ∀ (ovs : List String) (fns : List (String × FPath)),
      (fns.map Prod.fst).Nodup →
      ∀ p ∈ (collectOthers anchor v ovs fns).1,
        replaceFirst anchor v p.1 ∉ ((collectOthers anchor v ovs fns).2).map Prod.fst := by
  intro ovs
  induction ovs with
  | nil =>
    intro fns _ p hp
    simp [collectOthers] at hp
  | cons ov ovs ih =>
    intro fns hnd p hp
    cases hl : dlookup fns (replaceFirst anchor v ov) with
    | some f =>
      simp only [collectOthers, hl] at hp ⊢
      rcases List.mem_cons.mp hp with rfl | hmem
      · intro hk
        obtain ⟨e, he, hke⟩ := List.mem_map.mp hk
        have he' : e ∈ derase fns (replaceFirst anchor v ov) :=
          collectOthers_sub anchor v ovs _ e he
        exact not_mem_keys_derase hnd (hke ▸ List.mem_map.mpr ⟨e, he', hke⟩)
      · exact ih _ (keys_derase_nodup hnd) p hmem
    | none =>
      simp only [collectOthers, hl] at hp ⊢
      exact ih _ hnd p hp

/-- The tags of collected entries are unique when the candidates are. -/
theorem collectOthers_tags_nodup (anchor v : String) :
    ∀ (ovs : List String) (fns : List (String × FPath)), ovs.Nodup →
      (((collectOthers anchor v ovs fns).1).map Prod.fst).Nodup := by
  intro ovs
  induction ovs with
  | nil =>
    intro fns _
    simp [collectOthers]
  | cons ov ovs ih =>
    intro fns hnd
    rw [List.nodup_cons] at hnd
    cases hl : dlookup fns (replaceFirst anchor v ov) with
    | some f =>
      simp only [collectOthers, hl, List.map_cons, List.nodup_cons]
      refine ⟨fun hmem => ?_, ih _ hnd.2⟩
      obtain ⟨p, hp, hpe⟩ := List.mem_map.mp hmem
      exact hnd.1 (hpe ▸ (collectOthers_group_mem anchor v ovs _ p hp).1)
    | none =>
      simp only [collectOthers, hl]
      exact ih _ hnd.2

/-- groupStep when the file's name is gone from the dict. -/
theorem groupStep_skip {vars : List String}
    {st : List (String × FPath) × List (List (String × FPath))} {file : FPath}
    (h : ¬ (dlookup st.1 file.name).isSome = true) :
    groupStep vars st file = st := by
  simp [groupStep, h]

/-- groupStep when no accepted variable prefixes the name. -/
theorem groupStep_no_var {vars : List String}
    {st : List (String × FPath) × List (List (String × FPath))} {file : FPath}
    (h1 : (dlookup st.1 file.name).isSome = true)
    (h2 : vars.find? (fun v => (v ++ "_").data.isPrefixOf file.name.data) = none) :
    groupStep vars st file = st := by
  unfold groupStep
  rw [if_pos h1, h2]

/-- groupStep when the first matching variable is v. -/
theorem groupStep_found {vars : List String}
    {st : List (String × FPath) × List (List (String × FPath))} {file : FPath} {v : String}
    (h1 : (dlookup st.1 file.name).isSome = true)
    (h2 : vars.find? (fun v => (v ++ "_").data.isPrefixOf file.name.data) = some v) :
    groupStep vars st file =
      (derase (collectOthers file.name v (vars.filter fun ov => ov ≠ v) st.1).2 file.name,
       st.2 ++ [(collectOthers file.name v (vars.filter fun ov => ov ≠ v) st.1).1
         ++ [(v, file)]]) := by
  unfold groupStep
  rw [if_pos h1, h2]

/-- Grouped names split along a new group. -/
theorem gNames_append (gs : List (List (String × FPath))) (G : List (String × FPath)) :
    gNames (gs ++ [G]) = gNames gs ++ G.map fun e => e.2.name := by
  simp [gNames]

/-- Membership in a group's files. -/
theorem mem_groupFiles {g : List (String × FPath)} {f : FPath} :
    f ∈ groupFiles g ↔ ∃ e ∈ g, e.2 = f := by
  simp [groupFiles]

/-- One groupStep preserves the loop invariant, with its file marked done. -/
theorem groupStep_inv (vars : List String) (files : List FPath) (done : List FPath)
    (hv : vars.Nodup) (hu : ∀ v ∈ vars, '_' ∉ v.data)
    (hn : (files.map fun f => f.name).Nodup)
    (st : List (String × FPath) × List (List (String × FPath)))
    (file : FPath) (hfile : file ∈ files)
    (hinv : GroupInv vars files done st) :
    GroupInv vars files (done ++ [file]) (groupStep vars st file) := by
  obtain ⟨hA, hB, hC, hD1, hD2, hF, hE⟩ := hinv
  have hnameinj : ∀ f1 ∈ files, ∀ f2 ∈ files, f1.name = f2.name → f1 = f2 :=
    List.inj_on_of_nodup_map hn
  by_cases hlk : (dlookup st.1 file.name).isSome = true
  case neg =>
    rw [groupStep_skip hlk]
    refine ⟨hA, hB, hC, hD1, hD2, hF, ?_⟩
    intro f hf hpre
    rcases List.mem_append.mp hf with hf | hf
    · exact hE f hf hpre
    · obtain rfl := List.mem_singleton.mp hf
      rcases hF f hfile with hd | hg
      · exact absurd (dlookup_isSome_iff st.1 f.name |>.mpr
          (List.mem_map.mpr ⟨(f.name, f), hd, rfl⟩)) hlk
      · exact hg
  case pos =>
  cases hfd : vars.find? (fun v => (v ++ "_").data.isPrefixOf file.name.data) with
  | none =>
    rw [groupStep_no_var hlk hfd]
    refine ⟨hA, hB, hC, hD1, hD2, hF, ?_⟩
    intro f hf hpre
    rcases List.mem_append.mp hf with hf | hf
    · exact hE f hf hpre
    · obtain rfl := List.mem_singleton.mp hf
      obtain ⟨v, hvv, hvp⟩ := hpre
      exact absurd hvp (by simpa using List.find?_eq_none.mp hfd v hvv)
  | some v =>
    rw [groupStep_found hlk hfd]
    have hvmem : v ∈ vars := List.mem_of_find?_eq_some hfd
    have hvpre : ((v ++ "_").data.isPrefixOf file.name.data) = true := by
      have := List.find?_some hfd
      simpa using this
    obtain ⟨rest, hrest⟩ : ∃ rest, file.name.data = v.data ++ '_' :: rest := by
      obtain ⟨t, ht⟩ := List.isPrefixOf_iff_prefix.mp hvpre
      refine ⟨t, ?_⟩
      have hud : ("_" : String).data = ['_'] := rfl
      rw [← ht, String.data_append, hud]
      simp
    have hofn : ∀ ov : String, (replaceFirst file.name v ov).data = ov.data ++ '_' :: rest :=
      fun ov => replaceFirst_data _ _ _ _ hrest
    have hinj : ∀ ov1 ov2 : String,
        replaceFirst file.name v ov1 = replaceFirst file.name v ov2 → ov1 = ov2 := by
      intro ov1 ov2 h
      have h' := congrArg String.data h
      rw [hofn, hofn] at h'
      exact String.ext (List.append_cancel_right h')
    have hanchor : (file.name, file) ∈ st.1 := by
      obtain ⟨f0, hf0⟩ := Option.isSome_iff_exists.mp hlk
      have hmem := dlookup_mem hf0
      obtain ⟨hf0files, hf0name⟩ := hA _ hmem
      exact (hnameinj f0 hf0files file hfile hf0name) ▸ hmem
    have hGmem : ∀ p ∈ (collectOthers file.name v (vars.filter fun ov => ov ≠ v) st.1).1,
        p.1 ∈ vars ∧ p.2 ∈ files ∧ p.2.name.data = p.1.data ++ '_' :: rest ∧
          p.2.name = replaceFirst file.name v p.1 := by
      intro p hp
      obtain ⟨h1, h2⟩ := collectOthers_group_mem _ _ _ _ p hp
      obtain ⟨hfl, hname⟩ := hA _ h2
      refine ⟨(List.mem_filter.mp h1).1, hfl, ?_, hname⟩
      rw [congrArg String.data hname]
      exact hofn p.1
    have hGkeys : ∀ p ∈ (collectOthers file.name v (vars.filter fun ov => ov ≠ v) st.1).1
        ++ [(v, file)], p.2.name ∈ st.1.map Prod.fst := by
      intro p hp
      rcases List.mem_append.mp hp with hp | hp
      · obtain ⟨_, h2⟩ := collectOthers_group_mem _ _ _ _ p hp
        obtain ⟨_, hname⟩ := hA _ h2
        rw [hname]
        exact List.mem_map.mpr ⟨_, h2, rfl⟩
      · obtain rfl := List.mem_singleton.mp hp
        exact List.mem_map.mpr ⟨(file.name, file), hanchor, rfl⟩
    have hGdata : ∀ p ∈ (collectOthers file.name v (vars.filter fun ov => ov ≠ v) st.1).1
        ++ [(v, file)], p.1 ∈ vars ∧ p.2 ∈ files ∧ p.2.name.data = p.1.data ++ '_' :: rest := by
      intro p hp
      rcases List.mem_append.mp hp with hp | hp
      · obtain ⟨ha, hb, hc, _⟩ := hGmem p hp
        exact ⟨ha, hb, hc⟩
      · obtain rfl := List.mem_singleton.mp hp
        exact ⟨hvmem, hfile, hrest⟩
    refine ⟨?_, ?_, ?_, ?_, ?_, ?_, ?_⟩
    · intro e he
      exact hA e (collectOthers_sub _ _ _ _ e (derase_subset e he))
    · exact keys_derase_nodup (collectOthers_keys_nodup _ _ _ _ hB)
    · intro g hg
      rcases List.mem_append.mp hg with hg | hg
      · exact hC g hg
      · obtain rfl := List.mem_singleton.mp hg
        refine ⟨rest, fun e he => hGdata e he, ?_⟩
        intro v' hv' f' hf' hname'
        by_cases hvv : v' = v
        · subst hvv
          have : f' = file := by
            apply hnameinj f' hf' file hfile
            apply String.ext
            rw [hname', hrest]
          rw [this]
          exact List.mem_append.mpr (Or.inr (List.mem_singleton.mpr rfl))
        · have hv'oth : v' ∈ vars.filter (fun ov => ov ≠ v) :=
            List.mem_filter.mpr ⟨hv', by simpa using hvv⟩
          have hkey : replaceFirst file.name v v' = f'.name := by
            apply String.ext
            rw [hofn]
            exact hname'.symm
          have hfd' : (f'.name, f') ∈ st.1 := by
            rcases hF f' hf' with h | ⟨g₀, hg₀, hfg₀⟩
            · exact h
            · exfalso
              obtain ⟨e₀, he₀, he₀2⟩ := mem_groupFiles.mp hfg₀
              obtain ⟨rest₀, hent₀, hcomp₀⟩ := hC g₀ hg₀
              obtain ⟨he₀v, _, he₀d⟩ := hent₀ e₀ he₀
              rw [he₀2] at he₀d
              have hchain : e₀.1.data ++ '_' :: rest₀ = v'.data ++ '_' :: rest := by
                rw [← he₀d, hname']
              obtain ⟨_, hrr⟩ := decomp_unique e₀.1.data (hu _ he₀v) (hu _ hv') hchain
              have hfile_g₀ : (v, file) ∈ g₀ :=
                hcomp₀ v hvmem file hfile (by rw [hrest, hrr])
              have hfn : file.name ∈ gNames st.2 := by
                unfold gNames
                rw [List.mem_flatten]
                exact ⟨g₀.map (fun e => e.2.name), List.mem_map.mpr ⟨g₀, hg₀, rfl⟩,
                  List.mem_map.mpr ⟨(v, file), hfile_g₀, rfl⟩⟩
              exact hD2 _ hfn (List.mem_map.mpr ⟨(file.name, file), hanchor, rfl⟩)
          have := collectOthers_complete file.name v _ st.1 hB
            (fun a _ b _ h => hinj a b h) v' hv'oth f' (by rw [hkey]; exact hfd')
          exact List.mem_append.mpr (Or.inl this)
    · rw [gNames_append, List.nodup_append]
      have htags : (((collectOthers file.name v (vars.filter fun ov => ov ≠ v) st.1).1
          ++ [(v, file)]).map Prod.fst).Nodup := by
        rw [List.map_append, List.nodup_append]
        refine ⟨collectOthers_tags_nodup _ _ _ _ (hv.filter _), List.nodup_singleton _, ?_⟩
        intro a ha hb
        obtain ⟨p, hp, hpe⟩ := List.mem_map.mp ha
        have h1 := (collectOthers_group_mem _ _ _ _ p hp).1
        have : a ≠ v := by
          have := (List.mem_filter.mp h1).2
          simp only [decide_not] at this
          intro hav
          rw [← hpe] at hav
          subst hav
          simp at this
        simp only [List.map_cons, List.map_nil, List.mem_singleton] at hb
        exact this hb
      refine ⟨hD1, ?_, ?_⟩
      · apply List.Nodup.map_on ?_ (List.Nodup.of_map Prod.fst htags)
        intro e1 he1 e2 he2 hne
        obtain ⟨_, _, hd1⟩ := hGdata e1 he1
        obtain ⟨_, _, hd2⟩ := hGdata e2 he2
        have hchain : e1.1.data ++ '_' :: rest = e2.1.data ++ '_' :: rest := by
          rw [← hd1, ← hd2, hne]
        have htag : e1.1 = e2.1 := String.ext (List.append_cancel_right hchain)
        exact List.inj_on_of_nodup_map htags he1 he2 htag
      · intro a ha hb
        obtain ⟨p, hp, hpe⟩ := List.mem_map.mp hb
        exact hD2 a ha (hpe ▸ hGkeys p hp)
    · intro n hn'
      rw [gNames_append] at hn'
      have hkeysub : ∀ m ∈ (derase (collectOthers file.name v
          (vars.filter fun ov => ov ≠ v) st.1).2 file.name).map Prod.fst,
          m ∈ ((collectOthers file.name v (vars.filter fun ov => ov ≠ v) st.1).2).map
            Prod.fst := keys_derase_sub
      rcases List.mem_append.mp hn' with hn' | hn'
      · intro hmem
        apply hD2 n hn'
        obtain ⟨e, he, rfl⟩ := List.mem_map.mp hmem
        exact List.mem_map.mpr
          ⟨e, collectOthers_sub _ _ _ _ e (derase_subset e he), rfl⟩
      · obtain ⟨p, hp, hpe⟩ := List.mem_map.mp hn'
        rcases List.mem_append.mp hp with hp | hp
        · obtain ⟨_, _, _, hname⟩ := hGmem p hp
          intro hmem
          apply collectOthers_key_gone file.name v _ st.1 hB p hp
          rw [← hname, hpe]
          exact hkeysub _ hmem
        · obtain rfl := List.mem_singleton.mp hp
          rw [← hpe]
          exact not_mem_keys_derase (collectOthers_keys_nodup _ _ _ _ hB)
    · intro f₃ hf₃
      rcases hF f₃ hf₃ with hd | ⟨g₀, hg₀, hfg₀⟩
      · rcases collectOthers_account file.name v (vars.filter fun ov => ov ≠ v) st.1
          (f₃.name, f₃) hB hd with hin | ⟨ov, _, hg, _⟩
        · by_cases hfn : f₃.name = file.name
          · right
            have hf₃file : f₃ = file := hnameinj f₃ hf₃ file hfile hfn
            refine ⟨_, List.mem_append.mpr (Or.inr (List.mem_singleton.mpr rfl)), ?_⟩
            rw [hf₃file]
            exact mem_groupFiles.mpr
              ⟨(v, file), List.mem_append.mpr (Or.inr (List.mem_singleton.mpr rfl)), rfl⟩
          · left
            exact mem_derase_of_ne hin hfn
        · right
          refine ⟨_, List.mem_append.mpr (Or.inr (List.mem_singleton.mpr rfl)), ?_⟩
          exact mem_groupFiles.mpr ⟨(ov, f₃), List.mem_append.mpr (Or.inl hg), rfl⟩
      · exact Or.inr ⟨g₀, List.mem_append.mpr (Or.inl hg₀), hfg₀⟩
    · intro f₄ hf₄ _
      rcases List.mem_append.mp hf₄ with hf₄ | hf₄
      · rcases hE f₄ hf₄ (by assumption) with ⟨g₀, hg₀, hfg₀⟩
        exact ⟨g₀, List.mem_append.mpr (Or.inl hg₀), hfg₀⟩
      · obtain rfl := List.mem_singleton.mp hf₄
        refine ⟨_, List.mem_append.mpr (Or.inr (List.mem_singleton.mpr rfl)), ?_⟩
        exact mem_groupFiles.mpr
          ⟨(v, f₄), List.mem_append.mpr (Or.inr (List.mem_singleton.mpr rfl)), rfl⟩

/-- Entries survive the buildDict fold when later names differ. -/
theorem foldl_dinsert_pres (fs : List FPath) :
    ∀ (d₀ : List (String × FPath)) (e : String × FPath), e ∈ d₀ →
      (∀ f ∈ fs, f.name ≠ e.1) →
      e ∈ fs.foldl (fun d f => dinsert d f.name f) d₀ := by
  induction fs with
  | nil =>
    intro d₀ e he _
    exact he
  | cons f fs ih =>
    intro d₀ e he hne
    exact ih _ e (mem_dinsert_of_ne he (Ne.symm (hne f (List.mem_cons_self _ _))))
      fun x hx => hne x (List.mem_cons_of_mem _ hx)

/-- With unique names, every file keeps its entry in buildDict. -/
theorem foldl_dinsert_mem (fs : List FPath) :
    ∀ (d₀ : List (String × FPath)), (fs.map fun f => f.name).Nodup →
      ∀ f ∈ fs, (f.name, f) ∈ fs.foldl (fun d f => dinsert d f.name f) d₀ := by
  induction fs with
  | nil =>
    intro d₀ _ f hf
    simp at hf
  | cons f0 fs ih =>
    intro d₀ hnd f hf
    rw [List.map_cons, List.nodup_cons] at hnd
    rcases List.mem_cons.mp hf with rfl | hf'
    · apply foldl_dinsert_pres fs _ _ (mem_dinsert_self d₀ f.name f)
      intro f' hf' heq
      have heq' : f'.name = f.name := heq
      exact hnd.1 (heq' ▸ List.mem_map.mpr ⟨f', hf', rfl⟩)
    · exact ih _ hnd.2 f hf'

/-- buildDict entries are input files keyed by their own names. -/
theorem foldl_dinsert_entries (files : List FPath) :
    ∀ (fs : List FPath) (d₀ : List (String × FPath)),
      (∀ f ∈ fs, f ∈ files) → (∀ e ∈ d₀, e.2 ∈ files ∧ e.2.name = e.1) →
      ∀ e ∈ fs.foldl (fun d f => dinsert d f.name f) d₀,
        e.2 ∈ files ∧ e.2.name = e.1 := by
  intro fs
  induction fs with
  | nil =>
    intro d₀ _ hd e he
    exact hd e he
  | cons f fs ih =>
    intro d₀ hfs hd e he
    refine ih _ (fun x hx => hfs x (List.mem_cons_of_mem _ hx)) ?_ e he
    intro e' he'
    rcases dinsert_sub e' he' with h | h
    · exact hd e' h
    · rw [h]
      exact ⟨hfs f (List.mem_cons_self _ _), rfl⟩

/-- buildDict keys are unique. -/
theorem foldl_dinsert_nodup (fs : List FPath) :
    ∀ d₀ : List (String × FPath), (d₀.map Prod.fst).Nodup →
      ((fs.foldl (fun d f => dinsert d f.name f) d₀).map Prod.fst).Nodup := by
  induction fs with
  | nil =>
    intro d₀ h
    exact h
  | cons f fs ih =>
    intro d₀ h
    exact ih _ (keys_dinsert_nodup h)

/-- The invariant holds on the initial state of make_file_groups. -/
theorem groupInv_init (vars : List String) (files : List FPath)
    (hn : (files.map fun f => f.name).Nodup) :
    GroupInv vars files [] (buildDict files, []) := by
  refine ⟨?_, ?_, ?_, ?_, ?_, ?_, ?_⟩
  · exact foldl_dinsert_entries files files [] (fun f hf => hf) (by simp)
  · exact foldl_dinsert_nodup files [] (by simp)
  · intro g hg
    simp at hg
  · simp [gNames]
  · intro n hn'
    simp [gNames] at hn'
  · intro f hf
    exact Or.inl (foldl_dinsert_mem files [] hn f hf)
  · intro f hf
    simp at hf

/-- Folding groupStep over the files preserves the invariant. -/
theorem foldl_groupStep_inv (vars : List String) (files : List FPath)
    (hv : vars.Nodup) (hu : ∀ v ∈ vars, '_' ∉ v.data)
    (hn : (files.map fun f => f.name).Nodup) :
    ∀ (fs done : List FPath)
      (st : List (String × FPath) × List (List (String × FPath))),
      (∀ f ∈ fs, f ∈ files) → GroupInv vars files done st →
      GroupInv vars files (done ++ fs) (fs.foldl (groupStep vars) st) := by
  intro fs
  induction fs with
  | nil =>
    intro done st _ hinv
    simpa using hinv
  | cons f fs ih =>
    intro done st hfs hinv
    have h1 := groupStep_inv vars files done hv hu hn st f
      (hfs f (List.mem_cons_self _ _)) hinv
    have h2 := ih (done ++ [f]) (groupStep vars st f)
      (fun x hx => hfs x (List.mem_cons_of_mem _ hx)) h1
    rw [List.append_assoc] at h2
    exact h2

/-- The invariant at the end of make_file_groups. -/
theorem make_file_groups_inv (vars : List String) (files : List FPath)
    (hv : vars.Nodup) (hu : ∀ v ∈ vars, '_' ∉ v.data)
    (hn : (files.map fun f => f.name).Nodup) :
    GroupInv vars files files
      (files.foldl (groupStep vars) (buildDict files, [])) := by
  have h := foldl_groupStep_inv vars files hv hu hn files [] _
    (fun f hf => hf) (groupInv_init vars files hn)
  simpa using h

/-- C6 — make_file_groups, for variable sets whose names are distinct and
underscore-free and for file lists with distinct names: no file is placed
in two groups; within each group every entry tags a file whose name is the
group's common tail prefixed by the entry's variable (the anchor's name
with its leading variable replaced); two distinct input files whose names
differ only in the leading variable-underscore prefix always land in one
common group; and a file whose name starts with no accepted-variable
prefix is in no group. -/
theorem claim_c6_make_file_groups (vars : List String) (files : List FPath)
    (hv : vars.Nodup) (hu : ∀ v ∈ vars, '_' ∉ v.data)
    (hn : (files.map fun f => f.name).Nodup) :
    (List.Pairwise (fun g1 g2 => ∀ f : FPath, f ∈ groupFiles g1 → f ∉ groupFiles g2)
      (make_file_groups vars files)) ∧
    (∀ g ∈ make_file_groups vars files, ∃ rest : List Char,
      ∀ e ∈ g, e.1 ∈ vars ∧ e.2 ∈ files ∧ e.2.name.data = e.1.data ++ '_' :: rest) ∧
    (∀ f1 f2 : FPath, f1 ∈ files → f2 ∈ files → f1 ≠ f2 →
      ∀ v1 ∈ vars, ∀ v2 ∈ vars, ∀ rest : List Char,
        f1.name.data = v1.data ++ '_' :: rest → f2.name.data = v2.data ++ '_' :: rest →
        ∃ g ∈ make_file_groups vars files, f1 ∈ groupFiles g ∧ f2 ∈ groupFiles g) ∧
    (∀ f : FPath, (¬ ∃ v ∈ vars, (v ++ "_").data.isPrefixOf f.name.data = true) →
      ∀ g ∈ make_file_groups vars files, f ∉ groupFiles g) := by
  obtain ⟨hA, hB, hC, hD1, hD2, hF, hE⟩ := make_file_groups_inv vars files hv hu hn
  have hud : ("_" : String).data = ['_'] := rfl
  refine ⟨?_, ?_, ?_, ?_⟩
  · have h := hD1
    unfold gNames at h
    rw [List.nodup_flatten] at h
    have hpair := h.2
    rw [List.pairwise_map] at hpair
    apply List.Pairwise.imp ?_ hpair
    intro g1 g2 hdis f hf1 hf2
    obtain ⟨e1, he1, he1f⟩ := mem_groupFiles.mp hf1
    obtain ⟨e2, he2, he2f⟩ := mem_groupFiles.mp hf2
    exact hdis (List.mem_map.mpr ⟨e1, he1, congrArg FPath.name he1f⟩)
      (List.mem_map.mpr ⟨e2, he2, congrArg FPath.name he2f⟩)
  · intro g hg
    obtain ⟨rest, hent, _⟩ := hC g hg
    exact ⟨rest, hent⟩
  · intro f1 f2 hf1 hf2 _ v1 hv1 v2 hv2 rest hn1 hn2
    have hpre1 : ∃ v ∈ vars, (v ++ "_").data.isPrefixOf f1.name.data = true := by
      refine ⟨v1, hv1, List.isPrefixOf_iff_prefix.mpr ⟨rest, ?_⟩⟩
      rw [String.data_append, hud, hn1]
      simp
    obtain ⟨g, hg, hfg⟩ := hE f1 hf1 hpre1
    obtain ⟨rest₀, hent, hcomp⟩ := hC g hg
    obtain ⟨e1, he1, he1f⟩ := mem_groupFiles.mp hfg
    obtain ⟨he1v, _, he1d⟩ := hent e1 he1
    rw [he1f] at he1d
    have hchain : e1.1.data ++ '_' :: rest₀ = v1.data ++ '_' :: rest := by
      rw [← he1d, hn1]
    obtain ⟨_, hrr⟩ := decomp_unique e1.1.data (hu _ he1v) (hu _ hv1) hchain
    have hf2g : (v2, f2) ∈ g := hcomp v2 hv2 f2 hf2 (by rw [hn2, hrr])
    exact ⟨g, hg, hfg, mem_groupFiles.mpr ⟨(v2, f2), hf2g, rfl⟩⟩
  · intro f hnopre g hg hfg
    obtain ⟨rest₀, hent, _⟩ := hC g hg
    obtain ⟨e, he, hef⟩ := mem_groupFiles.mp hfg
    obtain ⟨hev, _, hed⟩ := hent e he
    rw [hef] at hed
    apply hnopre
    refine ⟨e.1, hev, List.isPrefixOf_iff_prefix.mpr ⟨rest₀, ?_⟩⟩
    rw [String.data_append, hud, hed]
    simp

/-- Witness for C6 at the variables tasmin/tasmax and two sibling files. -/
theorem claim_c6_witness :
    (List.Pairwise (fun g1 g2 => ∀ f : FPath, f ∈ groupFiles g1 → f ∉ groupFiles g2)
      (make_file_groups ["tasmin", "tasmax"]
        [⟨"tasmin_x.nc", "a/tasmin_x.nc"⟩, ⟨"tasmax_x.nc", "b/tasmax_x.nc"⟩])) ∧
    (∀ g ∈ make_file_groups ["tasmin", "tasmax"]
        [⟨"tasmin_x.nc", "a/tasmin_x.nc"⟩, ⟨"tasmax_x.nc", "b/tasmax_x.nc"⟩],
      ∃ rest : List Char,
      ∀ e ∈ g, e.1 ∈ ["tasmin", "tasmax"] ∧
        e.2 ∈ [⟨"tasmin_x.nc", "a/tasmin_x.nc"⟩, ⟨"tasmax_x.nc", "b/tasmax_x.nc"⟩] ∧
        e.2.name.data = e.1.data ++ '_' :: rest) ∧
    (∀ f1 f2 : FPath,
      f1 ∈ [⟨"tasmin_x.nc", "a/tasmin_x.nc"⟩, ⟨"tasmax_x.nc", "b/tasmax_x.nc"⟩] →
      f2 ∈ [⟨"tasmin_x.nc", "a/tasmin_x.nc"⟩, ⟨"tasmax_x.nc", "b/tasmax_x.nc"⟩] →
      f1 ≠ f2 →
      ∀ v1 ∈ ["tasmin", "tasmax"], ∀ v2 ∈ ["tasmin", "tasmax"], ∀ rest : List Char,
        f1.name.data = v1.data ++ '_' :: rest → f2.name.data = v2.data ++ '_' :: rest →
        ∃ g ∈ make_file_groups ["tasmin", "tasmax"]
          [⟨"tasmin_x.nc", "a/tasmin_x.nc"⟩, ⟨"tasmax_x.nc", "b/tasmax_x.nc"⟩],
          f1 ∈ groupFiles g ∧ f2 ∈ groupFiles g) ∧
    (∀ f : FPath,
      (¬ ∃ v ∈ ["tasmin", "tasmax"], (v ++ "_").data.isPrefixOf f.name.data = true) →
      ∀ g ∈ make_file_groups ["tasmin", "tasmax"]
        [⟨"tasmin_x.nc", "a/tasmin_x.nc"⟩, ⟨"tasmax_x.nc", "b/tasmax_x.nc"⟩],
        f ∉ groupFiles g) :=
  claim_c6_make_file_groups ["tasmin", "tasmax"]
    [⟨"tasmin_x.nc", "a/tasmin_x.nc"⟩, ⟨"tasmax_x.nc", "b/tasmax_x.nc"⟩]
    (by decide) (by decide) (by decide)

/-- runScenario on a scenario whose subset is nonempty. -/
theorem runScenario_ok (env : HandlerEnv) (baseDir : String) (psL : List Int)
    (rcp : String) (h : env.subsetF (env.getDatasets rcp) ≠ []) :
    runScenario env baseDir psL rcp =
      (scenTrace env psL rcp, Except.ok (scenOut env baseDir psL rcp)) := by
  simp only [runScenario, scenTrace, scenOut, scenEnsemble, groupsCount, if_neg h]

/-- runScenario on a scenario whose subset comes back empty. -/
theorem runScenario_err (env : HandlerEnv) (baseDir : String) (psL : List Int)
    (rcp : String) (h : env.subsetF (env.getDatasets rcp) = []) :
    runScenario env baseDir psL rcp =
      ([Ev.fetch rcp, Ev.subsetEv rcp],
       Except.error (PErr.processError
         "No data was produced when subsetting using the provided bounds.")) := by
  simp only [runScenario, if_pos h]

/-- A successful scenario loop yields exactly the per-scenario event
blocks in request order and the per-scenario results, and every requested
scenario had a nonempty subset. -/
theorem runScenarios_ok (env : HandlerEnv) (baseDir : String) (psL : List Int) :
    ∀ (rcps : List String) (tr : List Ev) (souts : List ScenOut),
      runScenarios env baseDir psL rcps = (tr, Except.ok souts) →
      tr = (rcps.map (scenTrace env psL)).flatten ∧
      souts = rcps.map (scenOut env baseDir psL) ∧
      ∀ r ∈ rcps, env.subsetF (env.getDatasets r) ≠ [] := by
  intro rcps
  induction rcps with
  | nil =>
    intro tr souts h
    simp only [runScenarios] at h
    injection h with h1 h2
    injection h2 with h3
    subst h1
    subst h3
    exact ⟨rfl, rfl, by simp⟩
  | cons rcp rcps ih =>
    intro tr souts h
    by_cases hsub : env.subsetF (env.getDatasets rcp) = []
    · rw [runScenarios, runScenario_err env baseDir psL rcp hsub] at h
      injection h with h1 h2
      exact absurd h2 (by simp)
    · rw [runScenarios, runScenario_ok env baseDir psL rcp hsub] at h
      cases hrec : runScenarios env baseDir psL rcps with
      | mk tr' res =>
        rw [hrec] at h
        cases res with
        | error e =>
          injection h with h1 h2
          exact absurd h2 (by simp)
        | ok ss =>
          injection h with h1 h2
          injection h2 with h3
          obtain ⟨htr', hss', hall⟩ := ih tr' ss hrec
          subst h1
          subst h3
          refine ⟨?_, ?_, ?_⟩
          · rw [htr']
            simp [scenTrace]
          · rw [hss']
            simp
          · intro r hr
            rcases List.mem_cons.mp hr with rfl | hr'
            · exact hsub
            · exact hall r hr'

/-- The scenario loop emits no serialize event. -/
theorem runScenarios_no_serialize (env : HandlerEnv) (baseDir : String) (psL : List Int) :
    ∀ rcps : List String, Ev.serializeEv ∉ (runScenarios env baseDir psL rcps).1 := by
  intro rcps
  induction rcps with
  | nil => simp [runScenarios]
  | cons rcp rcps ih =>
    by_cases hsub : env.subsetF (env.getDatasets rcp) = []
    · rw [runScenarios, runScenario_err env baseDir psL rcp hsub]
      simp
    · rw [runScenarios, runScenario_ok env baseDir psL rcp hsub]
      cases hrec : runScenarios env baseDir psL rcps with
      | mk tr' res =>
        rw [hrec] at ih
        cases res with
        | error e =>
          show Ev.serializeEv ∉ scenTrace env psL rcp ++ tr'
          intro hmem
          rcases List.mem_append.mp hmem with hmem | hmem
          · simp [scenTrace] at hmem
          · exact ih hmem
        | ok ss =>
          show Ev.serializeEv ∉ scenTrace env psL rcp ++ tr'
          intro hmem
          rcases List.mem_append.mp hmem with hmem | hmem
          · simp [scenTrace] at hmem
          · exact ih hmem

/-- An index-computation event always belongs to its own scenario block. -/
theorem scenTrace_indices (env : HandlerEnv) (psL : List Int) (rcp r0 : String)
    (n : ℕ) (hne : r0 ≠ rcp) : Ev.indicesEv r0 n ∉ scenTrace env psL rcp := by
  intro h
  simp only [scenTrace, List.mem_append, List.mem_cons, List.mem_map,
    List.not_mem_nil, or_false, List.mem_singleton] at h
  rcases h with h | h
  · rcases h with h | ⟨a, _, ha⟩
    · rcases h with h | h | h <;> exact Ev.noConfusion h
    · injection ha with h1 h2
      exact hne h1.symm
  · exact Ev.noConfusion h

/-- An ensemble event always carries the parsed percentiles. -/
theorem scenTrace_ensemble (env : HandlerEnv) (psL : List Int) (rcp r0 : String)
    (ps : List Int) (h : Ev.ensembleEv r0 ps ∈ scenTrace env psL rcp) : ps = psL := by
  simp only [scenTrace, List.mem_append, List.mem_cons, List.mem_map,
    List.not_mem_nil, or_false, List.mem_singleton] at h
  rcases h with h | h
  · rcases h with h | ⟨a, _, ha⟩
    · rcases h with h | h | h <;> exact Ev.noConfusion h
    · exact Ev.noConfusion ha
  · cases h
    rfl

/-- When some requested scenario subsets to nothing, the loop stops with
the ProcessError and never reaches the first such scenario's index
computations. -/
theorem runScenarios_err_first (env : HandlerEnv) (baseDir : String) (psL : List Int) :
    ∀ (rcps : List String) (tr : List Ev) (res : Except PErr (List ScenOut)) (r0 : String),
      runScenarios env baseDir psL rcps = (tr, res) →
      rcps.find? (fun r => decide (env.subsetF (env.getDatasets r) = [])) = some r0 →
      res = Except.error (PErr.processError
        "No data was produced when subsetting using the provided bounds.") ∧
      ∀ n : ℕ, Ev.indicesEv r0 n ∉ tr := by
  intro rcps
  induction rcps with
  | nil =>
    intro tr res r0 _ hfind
    simp at hfind
  | cons rcp rcps ih =>
    intro tr res r0 h hfind
    by_cases hsub : env.subsetF (env.getDatasets rcp) = []
    · have hfind' : rcp = r0 := by
        have hstep : List.find? (fun r => decide (env.subsetF (env.getDatasets r) = []))
            (rcp :: rcps) = some rcp := by
          apply List.find?_cons_of_pos
          simp [hsub]
        rw [hstep] at hfind
        exact Option.some.inj hfind
      obtain rfl := hfind'
      rw [runScenarios, runScenario_err env baseDir psL rcp hsub] at h
      injection h with h1 h2
      subst h1
      refine ⟨h2.symm, ?_⟩
      intro n hmem
      rcases List.mem_cons.mp hmem with hmem | hmem
      · exact Ev.noConfusion hmem
      · exact Ev.noConfusion (List.mem_singleton.mp hmem)
    · have hfind2 : List.find? (fun r => decide (env.subsetF (env.getDatasets r) = []))
          rcps = some r0 := by
        have hstep : List.find? (fun r => decide (env.subsetF (env.getDatasets r) = []))
            (rcp :: rcps) =
            List.find? (fun r => decide (env.subsetF (env.getDatasets r) = [])) rcps := by
          apply List.find?_cons_of_neg
          simp [hsub]
        rw [hstep] at hfind
        exact hfind
      have hr0ne : r0 ≠ rcp := by
        have hp0 := List.find?_some hfind2
        intro hx
        subst hx
        simp only [decide_eq_true_eq] at hp0
        exact hsub hp0
      rw [runScenarios, runScenario_ok env baseDir psL rcp hsub] at h
      cases hrec : runScenarios env baseDir psL rcps with
      | mk tr' res' =>
        rw [hrec] at h
        cases res' with
        | error e =>
          injection h with h1 h2
          subst h1
          obtain ⟨hres, hidx⟩ := ih tr' (Except.error e) r0 hrec hfind2
          refine ⟨h2 ▸ hres, ?_⟩
          intro n hmem
          rcases List.mem_append.mp hmem with hmem | hmem
          · exact scenTrace_indices env psL rcp r0 n hr0ne hmem
          · exact hidx n hmem
        | ok ss =>
          exfalso
          obtain ⟨_, _, hall⟩ := runScenarios_ok env baseDir psL rcps tr' ss hrec
          have hp0 := List.find?_some hfind2
          simp only [decide_eq_true_eq] at hp0
          exact hall r0 (List.mem_of_find?_eq_some hfind2) hp0

/-- A pair is its first component with a known second component. -/
theorem pair_eta_snd {α β : Type} (p : α × β) (b : β) (h : p.2 = b) : p = (p.1, b) := by
  rw [← h]

/-- Inversion of a successful handler run: the percentiles parsed, every
scenario succeeded, and the trace and output have the serialization
appended to the loop's trace. -/
theorem handler_ok_inv (env : HandlerEnv) (args : HandlerArgs)
    (tr : List Ev) (out : HandlerOut)
    (h : ensemble_common_handler env args = (tr, Except.ok out)) :
    ∃ (psL : List Int) (s0 : ScenOut) (rest : List ScenOut) (tr' : List Ev),
      parsePercs args.ensemble_percentiles = some psL ∧
      runScenarios env args.baseDir psL (args.rcp_inputs.map pyStrip) =
        (tr', Except.ok (s0 :: rest)) ∧
      tr = tr' ++ [Ev.serializeEv] ∧
      out = ⟨(if (args.rcp_inputs.map pyStrip).length > 1 then
                Combined.concat "rcp" (args.rcp_inputs.map pyStrip)
                  ((s0 :: rest).map fun s => s.ens)
              else Combined.single s0.ens),
             (if args.output_format = "csv" then
                OutputFile.zipArchive (args.baseDir ++ "/"
                    ++ (((s0 :: rest).getLastD s0).ofn ++ ".zip"))
                  [pathDir ((s0 :: rest).getLastD s0).basename
                     ++ (pathStem (withSuffix ((s0 :: rest).getLastD s0).basename ".csv")
                        ++ "_metadata.txt"),
                   withSuffix ((s0 :: rest).getLastD s0).basename ".csv"]
              else OutputFile.netcdf
                (withSuffix ((s0 :: rest).getLastD s0).basename ".nc"))⟩ := by
  unfold ensemble_common_handler at h
  split at h
  · injection h with h1 h2
    exact absurd h2 (by simp)
  · rename_i psL hpeq
    split at h
    · rename_i e heq2
      have h' : ((runScenarios env args.baseDir psL (args.rcp_inputs.map pyStrip)).1,
          (Except.error e : Except PErr HandlerOut)) = (tr, Except.ok out) := h
      injection h' with h1 h2
      exact absurd h2 (by simp)
    · rename_i souts heq2
      cases souts with
      | nil =>
        have h' : ((runScenarios env args.baseDir psL (args.rcp_inputs.map pyStrip)).1,
            (Except.error PErr.indexError : Except PErr HandlerOut)) =
            (tr, Except.ok out) := h
        injection h' with h1 h2
        exact absurd h2 (by simp)
      | cons s0 rest =>
        have h' : ((runScenarios env args.baseDir psL (args.rcp_inputs.map pyStrip)).1
            ++ [Ev.serializeEv],
            Except.ok
              (⟨(if (args.rcp_inputs.map pyStrip).length > 1 then
                   Combined.concat "rcp" (args.rcp_inputs.map pyStrip)
                     ((s0 :: rest).map fun s => s.ens)
                 else Combined.single s0.ens),
                (if args.output_format = "csv" then
                   OutputFile.zipArchive (args.baseDir ++ "/"
                       ++ (((s0 :: rest).getLastD s0).ofn ++ ".zip"))
                     [pathDir ((s0 :: rest).getLastD s0).basename
                        ++ (pathStem (withSuffix ((s0 :: rest).getLastD s0).basename ".csv")
                           ++ "_metadata.txt"),
                      withSuffix ((s0 :: rest).getLastD s0).basename ".csv"]
                 else OutputFile.netcdf
                   (withSuffix ((s0 :: rest).getLastD s0).basename ".nc"))⟩ :
                HandlerOut)) = (tr, Except.ok out) := h
        injection h' with h1 h2
        injection h2 with h3
        refine ⟨psL, s0, rest,
          (runScenarios env args.baseDir psL (args.rcp_inputs.map pyStrip)).1,
          hpeq, ?_, h1.symm, h3.symm⟩
        exact pair_eta_snd _ _ heq2

/-- C1 — on every successful run the event trace is exactly the requested
scenarios' blocks in request order followed by one final serialize event,
each block being fetch, subset, intermediate-variable computation, one
index computation per input file group, then the ensemble construction;
in particular no step runs before one whose output it consumes, and the
result is serialized only after every scenario is processed. -/
theorem claim_c1_pipeline (env : HandlerEnv) (args : HandlerArgs)
    (tr : List Ev) (out : HandlerOut)
    (h : ensemble_common_handler env args = (tr, Except.ok out)) :
    ∃ psL : List Int,
      parsePercs args.ensemble_percentiles = some psL ∧
      tr = (((args.rcp_inputs.map pyStrip).map (scenTrace env psL)).flatten)
        ++ [Ev.serializeEv] ∧
      ∀ rcp : String, scenTrace env psL rcp =
        [Ev.fetch rcp, Ev.subsetEv rcp, Ev.intermediateEv rcp] ++
          (List.range (groupsCount env rcp)).map (Ev.indicesEv rcp) ++
          [Ev.ensembleEv rcp psL] := by
  obtain ⟨psL, s0, rest, tr', hp, hrun, htr, _⟩ := handler_ok_inv env args tr out h
  obtain ⟨htr', _, _⟩ := runScenarios_ok env args.baseDir psL _ tr' (s0 :: rest) hrun
  exact ⟨psL, hp, by rw [htr, htr'], fun rcp => rfl⟩

/-- A with_suffix result is its directory and stem followed by the suffix. -/
theorem withSuffix_split (p suf : String) :
    withSuffix p suf = (pathDir p ++ pathStem p) ++ suf := by
  apply String.ext
  simp [withSuffix, pathDir, pathStem, String.data_append]

/-- String concatenation is associative. -/
theorem str_append_assoc (a b c : String) : a ++ b ++ c = a ++ (b ++ c) := by
  apply String.ext
  simp [String.data_append]

/-- C3 — the serialized output is determined by the output_format input
alone: csv yields one zip archive holding exactly the metadata text file
and the CSV file, anything else yields a single NetCDF file whose path
ends in .nc. -/
theorem claim_c3_output_format (env : HandlerEnv) (args : HandlerArgs)
    (tr : List Ev) (out : HandlerOut)
    (h : ensemble_common_handler env args = (tr, Except.ok out)) :
    (args.output_format = "csv" →
      ∃ zp mp cp : String, out.outFile = OutputFile.zipArchive zp [mp, cp] ∧
        (∃ a, zp = a ++ ".zip") ∧ (∃ b, mp = b ++ "_metadata.txt") ∧
        (∃ c, cp = c ++ ".csv")) ∧
    (args.output_format ≠ "csv" →
      ∃ stem, out.outFile = OutputFile.netcdf (stem ++ ".nc")) := by
  obtain ⟨psL, s0, rest, tr', hp, hrun, htr, hout⟩ := handler_ok_inv env args tr out h
  obtain rfl := hout
  constructor
  · intro hcsv
    refine ⟨args.baseDir ++ "/" ++ (((s0 :: rest).getLastD s0).ofn ++ ".zip"),
      pathDir ((s0 :: rest).getLastD s0).basename
        ++ (pathStem (withSuffix ((s0 :: rest).getLastD s0).basename ".csv")
           ++ "_metadata.txt"),
      withSuffix ((s0 :: rest).getLastD s0).basename ".csv", ?_, ?_, ?_, ?_⟩
    · show (if args.output_format = "csv" then
          OutputFile.zipArchive (args.baseDir ++ "/"
              ++ (((s0 :: rest).getLastD s0).ofn ++ ".zip"))
            [pathDir ((s0 :: rest).getLastD s0).basename
               ++ (pathStem (withSuffix ((s0 :: rest).getLastD s0).basename ".csv")
                  ++ "_metadata.txt"),
             withSuffix ((s0 :: rest).getLastD s0).basename ".csv"]
        else OutputFile.netcdf
          (withSuffix ((s0 :: rest).getLastD s0).basename ".nc")) = _
      rw [if_pos hcsv]
    · exact ⟨args.baseDir ++ "/" ++ ((s0 :: rest).getLastD s0).ofn,
        (str_append_assoc _ _ _).symm⟩
    · exact ⟨pathDir ((s0 :: rest).getLastD s0).basename
        ++ pathStem (withSuffix ((s0 :: rest).getLastD s0).basename ".csv"),
        (str_append_assoc _ _ _).symm⟩
    · exact ⟨pathDir ((s0 :: rest).getLastD s0).basename
        ++ pathStem ((s0 :: rest).getLastD s0).basename, withSuffix_split _ _⟩
  · intro hncsv
    refine ⟨pathDir ((s0 :: rest).getLastD s0).basename
      ++ pathStem ((s0 :: rest).getLastD s0).basename, ?_⟩
    show (if args.output_format = "csv" then
        OutputFile.zipArchive (args.baseDir ++ "/"
            ++ (((s0 :: rest).getLastD s0).ofn ++ ".zip"))
          [pathDir ((s0 :: rest).getLastD s0).basename
             ++ (pathStem (withSuffix ((s0 :: rest).getLastD s0).basename ".csv")
                ++ "_metadata.txt"),
           withSuffix ((s0 :: rest).getLastD s0).basename ".csv"]
      else OutputFile.netcdf
        (withSuffix ((s0 :: rest).getLastD s0).basename ".nc")) = _
    rw [if_neg hncsv, withSuffix_split]

/-- C4 — the percentiles given to every ensemble computation are exactly
the integers parsed in order from the comma-separated input, and when more
than one rcp is requested the combined result is an xr.concat along a new
rcp dimension whose coordinates are the stripped requested rcp strings in
request order. -/
theorem claim_c4_percentiles (env : HandlerEnv) (args : HandlerArgs)
    (tr : List Ev) (out : HandlerOut)
    (h : ensemble_common_handler env args = (tr, Except.ok out)) :
    ∃ psL : List Int,
      parsePercs args.ensemble_percentiles = some psL ∧
      (∀ (rcp : String) (ps : List Int), Ev.ensembleEv rcp ps ∈ tr → ps = psL) ∧
      ((args.rcp_inputs.map pyStrip).length > 1 →
        out.combined = Combined.concat "rcp" (args.rcp_inputs.map pyStrip)
          ((args.rcp_inputs.map pyStrip).map (scenEnsemble env psL))) := by
  obtain ⟨psL, s0, rest, tr', hp, hrun, htr, hout⟩ := handler_ok_inv env args tr out h
  obtain ⟨htr', hsouts, _⟩ := runScenarios_ok env args.baseDir psL _ tr' (s0 :: rest) hrun
  obtain rfl := hout
  refine ⟨psL, hp, ?_, ?_⟩
  · intro rcp ps hmem
    rw [htr] at hmem
    rcases List.mem_append.mp hmem with hmem | hmem
    · rw [htr', List.mem_flatten] at hmem
      obtain ⟨l, hl, hml⟩ := hmem
      obtain ⟨r', _, rfl⟩ := List.mem_map.mp hl
      exact scenTrace_ensemble env psL r' rcp ps hml
    · exact absurd (List.mem_singleton.mp hmem) (by simp)
  · intro hlen
    show (if (args.rcp_inputs.map pyStrip).length > 1 then
        Combined.concat "rcp" (args.rcp_inputs.map pyStrip)
          ((s0 :: rest).map fun s => s.ens)
      else Combined.single s0.ens) = _
    rw [if_pos hlen]
    congr 1
    rw [hsouts, List.map_map]
    rfl

/-- C8 — when some requested scenario's subset comes back empty (and the
percentiles input parsed), the handler stops with the ProcessError bearing
the exact message, serializes nothing, and never reaches that scenario's
index computations. -/
theorem claim_c8_empty_subset (env : HandlerEnv) (args : HandlerArgs)
    (tr : List Ev) (res : Except PErr HandlerOut) (psL : List Int) (r0 : String)
    (hp : parsePercs args.ensemble_percentiles = some psL)
    (h : ensemble_common_handler env args = (tr, res))
    (hbad : (args.rcp_inputs.map pyStrip).find?
        (fun r => decide (env.subsetF (env.getDatasets r) = [])) = some r0) :
    res = Except.error (PErr.processError
      "No data was produced when subsetting using the provided bounds.") ∧
    (∀ n : ℕ, Ev.indicesEv r0 n ∉ tr) ∧ Ev.serializeEv ∉ tr := by
  unfold ensemble_common_handler at h
  split at h
  · rename_i hpeq
    rw [hp] at hpeq
    exact absurd hpeq (by simp)
  · rename_i psL' hpeq
    rw [hp] at hpeq
    obtain rfl := Option.some.inj hpeq
    split at h
    · rename_i e heq2
      have hrun : runScenarios env args.baseDir psL (args.rcp_inputs.map pyStrip) =
          ((runScenarios env args.baseDir psL (args.rcp_inputs.map pyStrip)).1,
           Except.error e) := pair_eta_snd _ _ heq2
      obtain ⟨hres, hidx⟩ := runScenarios_err_first env args.baseDir psL _
        (runScenarios env args.baseDir psL (args.rcp_inputs.map pyStrip)).1
        (Except.error e) r0 hrun hbad
      have h' : ((runScenarios env args.baseDir psL (args.rcp_inputs.map pyStrip)).1,
          (Except.error e : Except PErr HandlerOut)) = (tr, res) := h
      injection h' with h1 h2
      subst h1
      injection hres with he
      refine ⟨?_, hidx, ?_⟩
      · rw [← h2, he]
      · exact runScenarios_no_serialize env args.baseDir psL (args.rcp_inputs.map pyStrip)
    · rename_i souts heq2
      exfalso
      have hrun : runScenarios env args.baseDir psL (args.rcp_inputs.map pyStrip) =
          ((runScenarios env args.baseDir psL (args.rcp_inputs.map pyStrip)).1,
           Except.ok souts) := pair_eta_snd _ _ heq2
      obtain ⟨_, _, hall⟩ := runScenarios_ok env args.baseDir psL _
        (runScenarios env args.baseDir psL (args.rcp_inputs.map pyStrip)).1 souts hrun
      have hp0 := List.find?_some hbad
      simp only [decide_eq_true_eq] at hp0
      exact hall r0 (List.mem_of_find?_eq_some hbad) hp0

/-- Witness for C1: one rcp, one file group, concrete oracles. -/
theorem claim_c1_witness :
    ∃ psL : List Int,
      parsePercs "10" = some psL ∧
      [Ev.fetch "rcp45", Ev.subsetEv "rcp45", Ev.intermediateEv "rcp45",
        Ev.indicesEv "rcp45" 0, Ev.ensembleEv "rcp45" [10], Ev.serializeEv] =
        (((["rcp45"].map pyStrip).map (scenTrace
          (⟨fun _ => ["u"], fun _ => [⟨"f", "f"⟩], fun fs => fs,
            fun fs => fs.map (fun f => f.name), fun _ => "d", fun _ _ => "E",
            fun _ => "out"⟩ : HandlerEnv) psL)).flatten) ++ [Ev.serializeEv] ∧
      ∀ rcp : String, scenTrace
          (⟨fun _ => ["u"], fun _ => [⟨"f", "f"⟩], fun fs => fs,
            fun fs => fs.map (fun f => f.name), fun _ => "d", fun _ _ => "E",
            fun _ => "out"⟩ : HandlerEnv) psL rcp =
        [Ev.fetch rcp, Ev.subsetEv rcp, Ev.intermediateEv rcp] ++
          (List.range (groupsCount
            (⟨fun _ => ["u"], fun _ => [⟨"f", "f"⟩], fun fs => fs,
              fun fs => fs.map (fun f => f.name), fun _ => "d", fun _ _ => "E",
              fun _ => "out"⟩ : HandlerEnv) rcp)).map (Ev.indicesEv rcp) ++
          [Ev.ensembleEv rcp psL] :=
  claim_c1_pipeline
    ⟨fun _ => ["u"], fun _ => [⟨"f", "f"⟩], fun fs => fs,
     fun fs => fs.map (fun f => f.name), fun _ => "d", fun _ _ => "E", fun _ => "out"⟩
    ⟨"netcdf", "10", ["rcp45"], "w"⟩
    [Ev.fetch "rcp45", Ev.subsetEv "rcp45", Ev.intermediateEv "rcp45",
     Ev.indicesEv "rcp45" 0, Ev.ensembleEv "rcp45" [10], Ev.serializeEv]
    ⟨Combined.single "E", OutputFile.netcdf "w/rcp45/out_ensemble.nc"⟩
    (by rfl)

/-- Witness for C3: the csv format at the same concrete run. -/
theorem claim_c3_witness :
    ((("csv" : String) = "csv") →
      ∃ zp mp cp : String,
        (⟨Combined.single "E",
          OutputFile.zipArchive "w/out.zip"
            ["w/rcp45/out_ensemble_metadata.txt", "w/rcp45/out_ensemble.csv"]⟩ :
          HandlerOut).outFile = OutputFile.zipArchive zp [mp, cp] ∧
        (∃ a, zp = a ++ ".zip") ∧ (∃ b, mp = b ++ "_metadata.txt") ∧
        (∃ c, cp = c ++ ".csv")) ∧
    ((("csv" : String) ≠ "csv") →
      ∃ stem, (⟨Combined.single "E",
          OutputFile.zipArchive "w/out.zip"
            ["w/rcp45/out_ensemble_metadata.txt", "w/rcp45/out_ensemble.csv"]⟩ :
          HandlerOut).outFile = OutputFile.netcdf (stem ++ ".nc")) :=
  claim_c3_output_format
    ⟨fun _ => ["u"], fun _ => [⟨"f", "f"⟩], fun fs => fs,
     fun fs => fs.map (fun f => f.name), fun _ => "d", fun _ _ => "E", fun _ => "out"⟩
    ⟨"csv", "10", ["rcp45"], "w"⟩
    [Ev.fetch "rcp45", Ev.subsetEv "rcp45", Ev.intermediateEv "rcp45",
     Ev.indicesEv "rcp45" 0, Ev.ensembleEv "rcp45" [10], Ev.serializeEv]
    ⟨Combined.single "E",
     OutputFile.zipArchive "w/out.zip"
       ["w/rcp45/out_ensemble_metadata.txt", "w/rcp45/out_ensemble.csv"]⟩
    (by rfl)

/-- Witness for C4: two rcps and a two-element percentile list. -/
theorem claim_c4_witness :
    ∃ psL : List Int,
      parsePercs "10,50" = some psL ∧
      (∀ (rcp : String) (ps : List Int),
        Ev.ensembleEv rcp ps ∈
          [Ev.fetch "rcp45", Ev.subsetEv "rcp45", Ev.intermediateEv "rcp45",
           Ev.indicesEv "rcp45" 0, Ev.ensembleEv "rcp45" [10, 50],
           Ev.fetch "rcp85", Ev.subsetEv "rcp85", Ev.intermediateEv "rcp85",
           Ev.indicesEv "rcp85" 0, Ev.ensembleEv "rcp85" [10, 50],
           Ev.serializeEv] → ps = psL) ∧
      (((["rcp45", "rcp85"].map pyStrip).length > 1) →
        (⟨Combined.concat "rcp" ["rcp45", "rcp85"] ["E", "E"],
          OutputFile.netcdf "w/rcp85/out_ensemble.nc"⟩ : HandlerOut).combined =
          Combined.concat "rcp" (["rcp45", "rcp85"].map pyStrip)
            ((["rcp45", "rcp85"].map pyStrip).map (scenEnsemble
              (⟨fun _ => ["u"], fun _ => [⟨"f", "f"⟩], fun fs => fs,
                fun fs => fs.map (fun f => f.name), fun _ => "d", fun _ _ => "E",
                fun _ => "out"⟩ : HandlerEnv) psL))) :=
  claim_c4_percentiles
    ⟨fun _ => ["u"], fun _ => [⟨"f", "f"⟩], fun fs => fs,
     fun fs => fs.map (fun f => f.name), fun _ => "d", fun _ _ => "E", fun _ => "out"⟩
    ⟨"netcdf", "10,50", ["rcp45", "rcp85"], "w"⟩
    [Ev.fetch "rcp45", Ev.subsetEv "rcp45", Ev.intermediateEv "rcp45",
     Ev.indicesEv "rcp45" 0, Ev.ensembleEv "rcp45" [10, 50],
     Ev.fetch "rcp85", Ev.subsetEv "rcp85", Ev.intermediateEv "rcp85",
     Ev.indicesEv "rcp85" 0, Ev.ensembleEv "rcp85" [10, 50], Ev.serializeEv]
    ⟨Combined.concat "rcp" ["rcp45", "rcp85"] ["E", "E"],
     OutputFile.netcdf "w/rcp85/out_ensemble.nc"⟩
    (by rfl)

/-- Witness for C8: a subset oracle that always returns no files. -/
theorem claim_c8_witness :
    (Except.error (PErr.processError
        "No data was produced when subsetting using the provided bounds.") :
      Except PErr HandlerOut) = Except.error (PErr.processError
        "No data was produced when subsetting using the provided bounds.") ∧
    (∀ n : ℕ, Ev.indicesEv "rcp45" n ∉ [Ev.fetch "rcp45", Ev.subsetEv "rcp45"]) ∧
    Ev.serializeEv ∉ [Ev.fetch "rcp45", Ev.subsetEv "rcp45"] :=
  claim_c8_empty_subset
    ⟨fun _ => ["u"], fun _ => [], fun fs => fs,
     fun fs => fs.map (fun f => f.name), fun _ => "d", fun _ _ => "E", fun _ => "out"⟩
    ⟨"netcdf", "10", ["rcp45"], "w"⟩
    [Ev.fetch "rcp45", Ev.subsetEv "rcp45"]
    (Except.error (PErr.processError
      "No data was produced when subsetting using the provided bounds."))
    [10] "rcp45" (by rfl) (by rfl) (by rfl)
